import Mathlib

/-!
Verification of a CPU-scheduling simulator (FIFO, SJF, STCF, Round Robin,
MLFQ, CFS) by shallow embedding of its Python sources into Lean.

Conventions of the embedding:
* Python `int` is modelled as `Int`; sentinel values (`-1`) are kept as in
  the source.
* Python `while` loops become fuel-indexed recursions returning `Option`;
  `none` means the fuel ran out (the Python loop would still be running).
* Python lists and `deque`s become `List` (append at the tail, pop at the
  head); `dict` (insertion-ordered in Python 3.7+) becomes an association
  list `List (Int × Int)` where updates keep the original position and
  fresh keys are appended.
* `copy.deepcopy` needs no counterpart: Lean values are immutable.
-/

namespace Sched

/-- Stable ascending insertion of one element by an `Int` key; helper for
`pySorted`. -/
def sortInsert (key : α → Int) (x : α) : List α → List α
  | [] => [x]
  | y :: ys => if key y < key x then y :: sortInsert key x ys else x :: y :: ys

/-- Python `sorted(l, key=key)`: stable ascending sort by an `Int` key
(insertion sort; stability matches CPython's stable sort). -/
def pySorted (key : α → Int) : List α → List α
  | [] => []
  | x :: xs => sortInsert key x (pySorted key xs)

/-- Python `min(l, key=key)` on a list known non-empty (head + tail):
returns the FIRST element attaining the minimal key (`min` keeps the current
candidate on ties). -/
def pyMin1 (key : α → Int) (x : α) (xs : List α) : α :=
  xs.foldl (fun acc y => if key y < key acc then y else acc) x

/-- Python `min(l, key=key)`, empty-safe form. -/
def pyMin (key : α → Int) : List α → Option α
  | [] => none
  | x :: xs => some (pyMin1 key x xs)

/-- Python `min` on a list of `Int` (no key). -/
def pyMinInt : List Int → Option Int :=
  pyMin (fun x => x)

/-- Replace the first element satisfying `p` (models a Python in-place
mutation of an object aliased inside a list). -/
def replaceFirst (p : α → Bool) (new : α) : List α → List α
  | [] => []
  | x :: xs => if p x then new :: xs else x :: replaceFirst p new xs

/-- Timeline entry status used by the MLFQ engine. -/
inductive TLStatus where
  | running
  | ioyield
  | idle
deriving Repr, DecidableEq

/-- The `Job` dataclass of `job.py` / `mlfq.py`. -/
structure Job where
  job_id : Int
  arrival_time : Int
  burst_time : Int
  remaining_time : Int
  priority : Int := 0
  time_in_queue : Int := 0
  start_time : Int := -1
  completion_time : Int := -1
  waiting_for_io : Bool := false
  io_return_time : Int := -1
  io_duration : Int := 5
  io_operations : List Int := []
deriving Repr, DecidableEq

/-- `Job.__post_init__`: whatever `remaining_time` the caller passed is
overwritten with `burst_time`, and `io_operations` (a possibly-`None`
sequence) is sorted ascending.  No field is validated. -/
def mkJob (job_id arrival_time burst_time remaining_time : Int)
    (priority : Int) (time_in_queue : Int) (start_time : Int)
    (completion_time : Int) (waiting_for_io : Bool) (io_return_time : Int)
    (io_duration : Int) (io_operations : Option (List Int)) : Job :=
  { job_id := job_id
    arrival_time := arrival_time
    burst_time := burst_time
    remaining_time := burst_time
    priority := priority
    time_in_queue := time_in_queue
    start_time := start_time
    completion_time := completion_time
    waiting_for_io := waiting_for_io
    io_return_time := io_return_time
    io_duration := io_duration
    io_operations :=
      match io_operations with
      | none => []
      | some l => pySorted id l }

/-- `Job(job_id, arrival_time, burst_time, remaining_time)` with all the
dataclass defaults, as the test drivers construct jobs. -/
def mkJobD (job_id arrival_time burst_time remaining_time : Int) : Job :=
  mkJob job_id arrival_time burst_time remaining_time 0 0 (-1) (-1) false (-1) 5 none

/-- `Job(... , io_operations=ops, io_duration=d)`. -/
def mkJobWithIo (job_id arrival_time burst_time remaining_time : Int)
    (io_operations : List Int) (io_duration : Int) : Job :=
  mkJob job_id arrival_time burst_time remaining_time 0 0 (-1) (-1) false (-1)
    io_duration (some io_operations)

/-- `Job.needs_io`: true iff the next pending I/O offset equals the CPU time
consumed so far, consuming the offset in that case.  Returns the flag and the
(updated) job. -/
def needs_io (j : Job) (cpu_time_used : Int) : Bool × Job :=
  match j.io_operations with
  | [] => (false, j)
  | t :: rest =>
      if cpu_time_used = t then (true, { j with io_operations := rest })
      else (false, j)

/-- The metrics dictionary returned by `MetricCalculator.calculate_metrics`. -/
structure Metrics where
  avg_turnaround : Rat
  avg_response : Rat
  turnaround_times : List Int
  response_times : List Int
deriving Repr, DecidableEq

/-- `statistics.mean`: arithmetic mean; raises `StatisticsError` on empty
input, modelled as `none`. -/
def mean (l : List Int) : Option Rat :=
  if l = [] then none else some ((l.sum : Rat) / (l.length : Rat))

/-- `MetricCalculator.calculate_metrics`: per-job turnaround and response in
completed order; `none` when a mean is taken over an empty list. -/
def calculate_metrics (completed : List Job) : Option Metrics :=
  let turnaround_times := completed.map (fun j => j.completion_time - j.arrival_time)
  let response_times := completed.map (fun j => j.start_time - j.arrival_time)
  match mean turnaround_times, mean response_times with
  | some t, some r =>
      some { avg_turnaround := t, avg_response := r
             turnaround_times := turnaround_times, response_times := response_times }
  | _, _ => none

/-! ### FIFO (`baselines.py` / `mlfq.py`, `FIFOScheduler.schedule`) -/

/-- Body of FIFO's `for job in jobs` loop: run each job to completion in
arrival order, fast-forwarding over idle gaps. -/
def fifoGo (current_time : Int) (completed : List Job) : List Job → List Job
  | [] => completed
  | job :: rest =>
      let t := if current_time < job.arrival_time then job.arrival_time else current_time
      let job := { job with start_time := t, completion_time := t + job.burst_time }
      fifoGo (t + job.burst_time) (completed ++ [job]) rest

/-- `FIFOScheduler.schedule`.  `none` only when the metrics computation
fails (empty input). -/
def fifoSchedule (jobs : List Job) : Option (List Job × Metrics) :=
  let sorted := pySorted (fun j => j.arrival_time) jobs
  let completed := fifoGo 0 [] sorted
  (calculate_metrics completed).map (fun m => (completed, m))

/-! ### SJF (`SJFScheduler.schedule`) -/

/-- One `while remaining` loop of SJF, fuel-indexed. -/
def sjfLoop : Nat → Int → List Job → List Job → Option (List Job)
  | 0, _, _, _ => none
  | _ + 1, _, completed, [] => some completed
  | fuel + 1, current_time, completed, remaining => do
      let rem0 := remaining
      let available := rem0.filter (fun j => j.arrival_time ≤ current_time)
      match pyMin (fun j => j.burst_time) available with
      | none => do
          let t ← pyMinInt (rem0.map (fun j => j.arrival_time))
          sjfLoop fuel t completed rem0
      | some job => do
          let rem1 := rem0.eraseP (fun j => j == job)
          let job := { job with start_time := current_time
                                completion_time := current_time + job.burst_time }
          sjfLoop fuel (current_time + job.burst_time) (completed ++ [job]) rem1

/-- `SJFScheduler.schedule`. -/
def sjfSchedule (fuel : Nat) (jobs : List Job) : Option (List Job × Metrics) := do
  let completed ← sjfLoop fuel 0 [] jobs
  let m ← calculate_metrics completed
  some (completed, m)

/-! ### STCF (`STCFScheduler.schedule`) -/

/-- One `while remaining` loop of STCF, fuel-indexed.  The selected job is
mutated in place in Python; here the updated job replaces the selected one
(removal by first-equal, as `list.remove` does). -/
def stcfLoop : Nat → Int → List Job → List Job → Option (List Job)
  | 0, _, _, _ => none
  | _ + 1, _, completed, [] => some completed
  | fuel + 1, current_time, completed, remaining => do
      let available := remaining.filter (fun j => j.arrival_time ≤ current_time)
      match pyMin (fun j => j.remaining_time) available with
      | none => do
          let t ← pyMinInt (remaining.map (fun j => j.arrival_time))
          stcfLoop fuel t completed remaining
      | some job => do
          let job1 := if job.start_time = -1 then { job with start_time := current_time } else job
          let job2 := { job1 with remaining_time := job1.remaining_time - 1 }
          let t := current_time + 1
          -- the selected object is mutated in place inside `remaining`
          let remaining := replaceFirst (fun j => j == job) job2 remaining
          if job2.remaining_time = 0 then
            let job3 := { job2 with completion_time := t }
            let remaining := replaceFirst (fun j => j == job2) job3 remaining
            stcfLoop fuel t (completed ++ [job3])
              (remaining.eraseP (fun j => j == job3))
          else
            stcfLoop fuel t completed remaining

/-- `STCFScheduler.schedule`. -/
def stcfSchedule (fuel : Nat) (jobs : List Job) : Option (List Job × Metrics) := do
  let completed ← stcfLoop fuel 0 [] jobs
  let m ← calculate_metrics completed
  some (completed, m)

/-! ### Round Robin (`RoundRobinScheduler.schedule`)

The loop additionally records a dispatch trace `(time, job_id)` — a ghost
observation that changes no scheduling decision — so that the alternation
property of §8 can be stated. -/

/-- `while waiting_jobs and waiting_jobs[0].arrival_time <= current_time`:
move the arrived prefix of the (sorted) waiting list to the ready tail. -/
def rrArrivals (current_time : Int) :
    List Job → List Job → List Job × List Job
  | [], ready => ([], ready)
  | w :: ws, ready =>
      if w.arrival_time ≤ current_time then rrArrivals current_time ws (ready ++ [w])
      else (w :: ws, ready)

/-- One dispatch of Round Robin (ready queue known non-empty after the
arrival scan): run the head for `min(quantum, remaining)` ticks, absorb the
arrivals of that span, then requeue or complete.  Returns
`(current_time, waiting, ready, completed, dispatches)`. -/
def rrTick (q : Int) (current_time : Int) (waiting : List Job) (job : Job)
    (ready : List Job) (completed : List Job) (dispatches : List (Int × Int)) :
    Int × List Job × List Job × List Job × List (Int × Int) :=
  let dispatches1 := dispatches ++ [(current_time, job.job_id)]
  let job1 := if job.start_time = -1 then { job with start_time := current_time } else job
  let exec_time := min q job1.remaining_time
  let job2 := { job1 with remaining_time := job1.remaining_time - exec_time }
  let t := current_time + exec_time
  let a := rrArrivals t waiting ready
  if 0 < job2.remaining_time then
    (t, a.1, a.2 ++ [job2], completed, dispatches1)
  else
    (t, a.1, a.2, completed ++ [{ job2 with completion_time := t }], dispatches1)

/-- One `while waiting_jobs or ready_queue` loop of Round Robin. -/
def rrLoop (q : Int) :
    Nat → Int → List Job → List Job → List Job → List (Int × Int) →
    Option (List Job × List (Int × Int))
  | 0, _, _, _, _, _ => none
  | fuel + 1, current_time, waiting, ready, completed, dispatches =>
      if waiting = [] ∧ ready = [] then some (completed, dispatches)
      else
        let a := rrArrivals current_time waiting ready
        match a.2 with
        | [] =>
            match a.1 with
            | [] => some (completed, dispatches)
            | w :: _ => rrLoop q fuel w.arrival_time a.1 [] completed dispatches
        | job :: ready =>
            let b := rrTick q current_time a.1 job ready completed dispatches
            rrLoop q fuel b.1 b.2.1 b.2.2.1 b.2.2.2.1 b.2.2.2.2

/-- `RoundRobinScheduler(time_quantum=q).schedule`. -/
def rrSchedule (q : Int) (fuel : Nat) (jobs : List Job) :
    Option (List Job × List (Int × Int) × Metrics) := do
  let waiting := pySorted (fun j => j.arrival_time) jobs
  let (completed, dispatches) ← rrLoop q fuel 0 waiting [] [] []
  let m ← calculate_metrics completed
  some (completed, dispatches, m)

/-! ### CFS (`cfs.py`, `CFSScheduler.schedule`)

The `vruntime` dict (insertion-ordered) is an association list; the loop
additionally records a ghost execution trace `(time, job_id)`, one entry per
executed tick, for the fairness property of §8. -/

/-- The values view of the vruntime dict. -/
def vrValues (vr : List (Int × Int)) : List Int := vr.map Prod.snd

/-- `vruntime[id]` (present under the table invariant; defaults to 0 where
Python would raise `KeyError`). -/
def vrLookup (vr : List (Int × Int)) (id : Int) : Int :=
  ((vr.find? (fun p => p.1 == id)).map Prod.snd).getD 0

/-- `vruntime[id] = v`: update in place (keeping dict position) or append. -/
def vrSet (vr : List (Int × Int)) (id v : Int) : List (Int × Int) :=
  if vr.any (fun p => p.1 == id) then
    vr.map (fun p => if p.1 == id then (id, v) else p)
  else vr ++ [(id, v)]

/-- `min(vruntime.values()) if vruntime else 0`. -/
def minVruntime (vr : List (Int × Int)) : Int :=
  match pyMinInt (vrValues vr) with
  | none => 0
  | some m => m

/-- The CFS arrival loop: move the arrived prefix of the waiting list into
the ready set, giving each newcomer the current minimum vruntime. -/
def cfsArrivals (current_time : Int) :
    List Job → List Job → List (Int × Int) →
    List Job × List Job × List (Int × Int)
  | [], ready, vr => ([], ready, vr)
  | w :: ws, ready, vr =>
      if w.arrival_time ≤ current_time then
        cfsArrivals current_time ws (ready ++ [w]) (vrSet vr w.job_id (minVruntime vr))
      else (w :: ws, ready, vr)

/-- One executed CFS tick (ready set known non-empty after the arrival
scan): select by minimal vruntime, run one tick, absorb arrivals, then
complete if `remaining_time` reached 0.  Python stamps `completion_time` on
the object (still aliased inside `ready_jobs`) before removing it, so the
removal compares against the stamped value.  Returns
`(current_time, waiting, ready, vruntime, completed, trace)`. -/
def cfsTick (current_time : Int) (waiting : List Job) (r : Job) (rs : List Job)
    (vr : List (Int × Int)) (completed : List Job) (trace : List (Int × Int)) :
    Int × List Job × List Job × List (Int × Int) × List Job × List (Int × Int) :=
  let job := pyMin1 (fun j => vrLookup vr j.job_id) r rs
  let job1 := if job.start_time = -1 then { job with start_time := current_time } else job
  let job2 := { job1 with remaining_time := job1.remaining_time - 1 }
  let t := current_time + 1
  let vr1 := vrSet vr job.job_id (vrLookup vr job.job_id + 1)
  let ready1 := replaceFirst (fun k => k == job) job2 (r :: rs)
  let trace1 := trace ++ [(current_time, job.job_id)]
  let a := cfsArrivals t waiting ready1 vr1
  if job2.remaining_time = 0 then
    let job3 := { job2 with completion_time := t }
    (t, a.1, (replaceFirst (fun k => k == job2) job3 a.2.1).eraseP (fun k => k == job3),
     a.2.2.eraseP (fun p => p.1 == job.job_id), completed ++ [job3], trace1)
  else
    (t, a.1, a.2.1, a.2.2, completed, trace1)

/-- One `while waiting_jobs or ready_jobs` loop of CFS, fuel-indexed. -/
def cfsLoop : Nat → Int → List Job → List Job → List (Int × Int) →
    List Job → List (Int × Int) → Option (List Job × List (Int × Int))
  | 0, _, _, _, _, _, _ => none
  | fuel + 1, current_time, waiting, ready, vr, completed, trace =>
      if waiting = [] ∧ ready = [] then some (completed, trace)
      else
        let a := cfsArrivals current_time waiting ready vr
        match a.2.1 with
        | [] =>
            match a.1 with
            | [] => some (completed, trace)
            | w :: _ => cfsLoop fuel w.arrival_time a.1 [] a.2.2 completed trace
        | r :: rs =>
            let b := cfsTick current_time a.1 r rs a.2.2 completed trace
            cfsLoop fuel b.1 b.2.1 b.2.2.1 b.2.2.2.1 b.2.2.2.2.1 b.2.2.2.2.2

/-- `CFSScheduler.schedule` (the `min_granularity` parameter of the
constructor is never read by the loop). -/
def cfsSchedule (fuel : Nat) (jobs : List Job) :
    Option (List Job × List (Int × Int) × Metrics) := do
  let waiting := pySorted (fun j => j.arrival_time) jobs
  let (completed, trace) ← cfsLoop fuel 0 waiting [] [] [] []
  let m ← calculate_metrics completed
  some (completed, trace, m)

/-! ### MLFQ (`mlfq.py`, `MLFQScheduler`) -/

/-- Timeline entry `(time, job_id, priority, status)` appended each tick. -/
structure TLEntry where
  time : Int
  job_id : Int
  priority : Int
  status : TLStatus
deriving Repr, DecidableEq

/-- The immutable configuration fixed by `MLFQScheduler.__init__`. -/
structure MLFQConfig where
  num_queues : Nat
  time_quantum : List Int
  time_allotments : List Int
  boost_interval : Option Int
deriving Repr, DecidableEq

/-- The mutable instance state that survives between `schedule` calls:
`self.queues` and `self.time_since_boost`. -/
structure MLFQPersist where
  queues : List (List Job)
  time_since_boost : Int
deriving Repr, DecidableEq

/-- `MLFQScheduler.__init__`: stores the given lists (or their documented
defaults) WITHOUT validating their lengths, and creates `num_queues` empty
queues with the boost counter at zero. -/
def mkMLFQScheduler (num_queues : Nat) (time_quantum : Option (List Int))
    (time_allotments : Option (List Int)) (boost_interval : Option Int) :
    MLFQConfig × MLFQPersist :=
  let tq := match time_quantum with
    | none => (List.range num_queues).map (fun i => (2 : Int) ^ i)
    | some l => l
  let ta := match time_allotments with
    | none => tq.map (fun q => 2 * q)
    | some l => l
  (⟨num_queues, tq, ta, boost_interval⟩,
   ⟨List.replicate num_queues [], 0⟩)

/-- `self.queues[i]` (out-of-range reads, which raise in Python, give `[]`). -/
def qGet (queues : List (List Job)) (i : Int) : List Job :=
  queues.getD i.toNat []

/-- `self.queues[i].append(j)` (out-of-range writes, which raise in Python,
are dropped). -/
def qAppend (queues : List (List Job)) (i : Int) (j : Job) : List (List Job) :=
  queues.set i.toNat (qGet queues i ++ [j])

/-- `MLFQScheduler._boost_all_jobs`: drain every queue (in level order),
reset each drained job and the running job to priority 0 with
`time_in_queue = 0`, and put all drained jobs back into queue 0.  Jobs in
I/O wait are not passed to this function and are untouched. -/
def boost_all_jobs (queues : List (List Job)) (current : Option Job) :
    List (List Job) × Option Job :=
  let all_jobs := queues.flatten.map (fun j => { j with priority := 0, time_in_queue := 0 })
  let current := current.map (fun j => { j with priority := 0, time_in_queue := 0 })
  ((List.replicate queues.length ([] : List Job)).set 0 all_jobs, current)

/-- Truthiness of `if self.boost_interval and self.time_since_boost >=
self.boost_interval` (`None` and `0` are falsy). -/
def boostCond (boost_interval : Option Int) (time_since_boost : Int) : Prop :=
  match boost_interval with
  | none => False
  | some b => b ≠ 0 ∧ b ≤ time_since_boost

instance (b : Option Int) (t : Int) : Decidable (boostCond b t) := by
  unfold boostCond; cases b <;> infer_instance

/-- I/O completion scan: jobs whose `io_return_time` has passed re-enter the
queue of their (unchanged) priority with `waiting_for_io` cleared, in
`io_jobs` order; the rest stay in I/O wait. -/
def ioReturnStep (current_time : Int) (io_jobs : List Job)
    (queues : List (List Job)) : List Job × List (List Job) :=
  let returned := io_jobs.filter (fun j => j.io_return_time ≤ current_time)
  let queues := returned.foldl
    (fun qs j => qAppend qs j.priority { j with waiting_for_io := false }) queues
  (io_jobs.filter (fun j => ¬ j.io_return_time ≤ current_time), queues)

/-- MLFQ arrival loop: arrived jobs enter queue 0 with priority 0 and
`time_in_queue = 0`. -/
def mlfqArrivals (current_time : Int) :
    List Job → List (List Job) → List Job × List (List Job)
  | [], queues => ([], queues)
  | w :: ws, queues =>
      if w.arrival_time ≤ current_time then
        mlfqArrivals current_time ws
          (qAppend queues 0 { w with priority := 0, time_in_queue := 0 })
      else (w :: ws, queues)

/-- Retirement of the running job (already known to satisfy the retire
condition): completion, I/O parking, or possible demotion + requeue.
Returns `(queues, io_jobs, completed)`. -/
def retireStep (cfg : MLFQConfig) (current_time : Int) (j : Job)
    (queues : List (List Job)) (io_jobs : List Job) (completed : List Job) :
    List (List Job) × List Job × List Job :=
  if j.remaining_time ≤ 0 then
    (queues, io_jobs, completed ++ [{ j with completion_time := current_time }])
  else if j.waiting_for_io then
    (queues, io_jobs ++ [j], completed)
  else
    let j := if cfg.time_allotments.getD j.priority.toNat 0 ≤ j.time_in_queue then
               { j with priority := min (j.priority + 1) ((cfg.num_queues : Int) - 1)
                        time_in_queue := 0 }
             else j
    (qAppend queues j.priority j, io_jobs, completed)

/-- Level-major selection: pop the head of the first non-empty queue,
returning the job, its level index, and the shrunken queue list. -/
def selectScan : List (List Job) → Option (Job × Nat × List (List Job))
  | [] => none
  | [] :: rest =>
      (selectScan rest).map (fun x => (x.1, x.2.1 + 1, [] :: x.2.2))
  | (j :: q) :: rest => some (j, 0, q :: rest)

/-- The full loop state of `MLFQScheduler.schedule`. -/
structure MLFQState where
  waiting : List Job
  queues : List (List Job)
  io_jobs : List Job
  current : Option Job
  quantum_remaining : Int
  cpu_time_used : Int
  completed : List Job
  current_time : Int
  time_since_boost : Int
deriving Repr, DecidableEq

/-- Loop exit test: `while waiting_jobs or any(self.queues) or current_job
or io_jobs` has become false. -/
def mlfqDone (s : MLFQState) : Prop :=
  s.waiting = [] ∧ s.queues.all (fun q => q.isEmpty) ∧ s.current = none ∧ s.io_jobs = []

instance (s : MLFQState) : Decidable (mlfqDone s) := by
  unfold mlfqDone; infer_instance

/-- Phase 1 (Rule 5): priority boost, when due. -/
def phaseBoost (cfg : MLFQConfig) (s : MLFQState) : MLFQState :=
  if boostCond cfg.boost_interval s.time_since_boost then
    let (qs, c) := boost_all_jobs s.queues s.current
    { s with queues := qs, current := c, time_since_boost := 0 }
  else s

/-- Phase 2: I/O completions re-enter their ready queues. -/
def phaseIOReturn (s : MLFQState) : MLFQState :=
  let (io', qs') := ioReturnStep s.current_time s.io_jobs s.queues
  { s with io_jobs := io', queues := qs' }

/-- Phase 3: arrivals enter queue 0. -/
def phaseArrivals (s : MLFQState) : MLFQState :=
  let (w', qs') := mlfqArrivals s.current_time s.waiting s.queues
  { s with waiting := w', queues := qs' }

/-- Phase 4: retire / requeue the running job when its quantum is spent, it
completed, or it yielded for I/O. -/
def phaseRetire (cfg : MLFQConfig) (s : MLFQState) : MLFQState :=
  match s.current with
  | some j =>
      if s.quantum_remaining ≤ 0 ∨ j.remaining_time ≤ 0 ∨ j.waiting_for_io then
        let (qs, io, comp) := retireStep cfg s.current_time j s.queues s.io_jobs s.completed
        { s with queues := qs, io_jobs := io, completed := comp
                 current := none, cpu_time_used := 0 }
      else s
  | none => s

/-- Phase 5: level-major selection of the next job when the CPU is free. -/
def phaseSelect (cfg : MLFQConfig) (s : MLFQState) : MLFQState :=
  match s.current with
  | none =>
      match selectScan s.queues with
      | none => s
      | some (j, p, qs) =>
          let j := if j.start_time = -1 then { j with start_time := s.current_time } else j
          { s with queues := qs, current := some j
                   quantum_remaining := cfg.time_quantum.getD p 0
                   cpu_time_used := 0 }
  | some _ => s

/-- Phase 6: execute one tick (or yield for I/O, or idle), producing the
tick's timeline entry. -/
def phaseExec (s : MLFQState) : TLEntry × MLFQState :=
  match s.current with
  | some j =>
      let total_cpu := j.burst_time - j.remaining_time
      let (ioFlag, j') := needs_io j total_cpu
      if ioFlag then
        let j'' := { j' with waiting_for_io := true
                             io_return_time := s.current_time + j'.io_duration }
        (⟨s.current_time, j.job_id, j.priority, TLStatus.ioyield⟩,
         { s with current := some j'' })
      else
        let j'' := { j' with remaining_time := j'.remaining_time - 1
                             time_in_queue := j'.time_in_queue + 1 }
        (⟨s.current_time, j.job_id, j.priority, TLStatus.running⟩,
         { s with current := some j''
                  quantum_remaining := s.quantum_remaining - 1
                  cpu_time_used := s.cpu_time_used + 1 })
  | none => (⟨s.current_time, -1, -1, TLStatus.idle⟩, s)

/-- Phase 7: advance the clock and the boost counter. -/
def phaseTick (s : MLFQState) : MLFQState :=
  { s with current_time := s.current_time + 1
           time_since_boost := s.time_since_boost + 1 }

/-- One iteration of the MLFQ loop (boost, I/O returns, arrivals, retire,
select, execute, clock tick), returning the timeline entry of the tick and
the next state. -/
def mlfqStep (cfg : MLFQConfig) (s : MLFQState) : TLEntry × MLFQState :=
  let s := phaseSelect cfg (phaseRetire cfg (phaseArrivals (phaseIOReturn (phaseBoost cfg s))))
  let (entry, s) := phaseExec s
  (entry, phaseTick s)

/-- The `while` loop of `MLFQScheduler.schedule`, fuel-indexed, returning
the completed jobs, the timeline produced from this state on, and the final
instance state (`queues`, `time_since_boost`). -/
def mlfqLoop (cfg : MLFQConfig) :
    Nat → MLFQState → Option (List Job × List TLEntry × List (List Job) × Int)
  | 0, _ => none
  | fuel + 1, s =>
      if mlfqDone s then some (s.completed, [], s.queues, s.time_since_boost)
      else
        (mlfqLoop cfg fuel (mlfqStep cfg s).2).map
          (fun x => (x.1, (mlfqStep cfg s).1 :: x.2.1, x.2.2))

/-- `MLFQScheduler.schedule`, threading the persistent instance state
explicitly: takes the state left by the previous run, returns the new one. -/
def mlfqSchedule (cfg : MLFQConfig) (persist : MLFQPersist) (fuel : Nat)
    (jobs : List Job) :
    Option ((List Job × Metrics × List TLEntry) × MLFQPersist) :=
  match mlfqLoop cfg fuel
      { waiting := pySorted (fun j => j.arrival_time) jobs
        queues := persist.queues, io_jobs := [], current := none
        quantum_remaining := 0, cpu_time_used := 0, completed := []
        current_time := 0, time_since_boost := persist.time_since_boost } with
  | none => none
  | some x =>
      match calculate_metrics x.1 with
      | none => none
      | some m => some ((x.1, m, x.2.1), ⟨x.2.2.1, x.2.2.2⟩)

/-- Verification predicate for the boost property (C5): every copy of job
`jid` that is queued, running, or in I/O wait sits at priority 0 with
`time_in_queue = 0`.  This is what a boost establishes for jobs not in I/O
wait, and it is preserved until the job's next timeline entry. -/
def JidZero (s : MLFQState) (jid : Int) : Prop :=
  (∀ q ∈ s.queues, ∀ j ∈ q, j.job_id = jid → j.priority = 0 ∧ j.time_in_queue = 0) ∧
  (∀ j : Job, s.current = some j → j.job_id = jid → j.priority = 0 ∧ j.time_in_queue = 0) ∧
  (∀ j ∈ s.io_jobs, j.job_id = jid → j.priority = 0 ∧ j.time_in_queue = 0)

/-! ### Predicates for the completed-job invariant (C1) -/

/-- The ordering chain `arrival_time ≤ start_time ≤ completion_time`. -/
def jobOrdered (j : Job) : Prop :=
  j.arrival_time ≤ j.start_time ∧ j.start_time ≤ j.completion_time

/-- What holds of a completed job of the tick-based engines: the ordering
chain plus `remaining_time = 0`. -/
def completedOk (j : Job) : Prop :=
  jobOrdered j ∧ j.remaining_time = 0

/-- A job as user code hands it to `schedule`: `start_time` still at its
`-1` sentinel, at least one tick of work, and `remaining_time` as
`__post_init__` left it (equal to `burst_time`). -/
def freshInput (j : Job) : Prop :=
  j.start_time = -1 ∧ 1 ≤ j.remaining_time ∧ j.remaining_time = j.burst_time

/-- Waiting-list invariant of the tick-based engines: not yet dispatched,
work left to do. -/
def freshJob (j : Job) : Prop :=
  j.start_time = -1 ∧ 1 ≤ j.remaining_time

/-- `start_time` is unset or within `[arrival_time, t]`. -/
def startInv (j : Job) (t : Int) : Prop :=
  j.start_time = -1 ∨ (j.arrival_time ≤ j.start_time ∧ j.start_time ≤ t)

/-- Ready-set invariant of the tick-based engines: the job has arrived and
`startInv` holds. -/
def readyInv (j : Job) (t : Int) : Prop :=
  j.arrival_time ≤ t ∧ startInv j t

/-- Queue/I/O invariant of Round Robin and MLFQ: `readyInv` plus a strictly
positive remaining time. -/
def queuedInv (j : Job) (t : Int) : Prop :=
  1 ≤ j.remaining_time ∧ readyInv j t

/-- MLFQ running-job invariant: `start_time` is set and in range and
`remaining_time` has not gone negative. -/
def runningInv (j : Job) (t : Int) : Prop :=
  0 ≤ j.remaining_time ∧ j.arrival_time ≤ j.start_time ∧ j.start_time ≤ t

/-- The MLFQ loop invariant from which C1 follows for every completed
job. -/
def mlfqInv (s : MLFQState) : Prop :=
  (∀ j ∈ s.waiting, freshJob j) ∧
  (∀ q ∈ s.queues, ∀ j ∈ q, queuedInv j s.current_time) ∧
  (∀ j ∈ s.io_jobs, queuedInv j s.current_time) ∧
  (∀ j : Job, s.current = some j → runningInv j s.current_time) ∧
  (∀ j ∈ s.completed, completedOk j)

instance (j : Job) : Decidable (jobOrdered j) := by
  unfold jobOrdered
  infer_instance

instance (j : Job) : Decidable (completedOk j) := by
  unfold completedOk
  infer_instance

instance (j : Job) : Decidable (freshInput j) := by
  unfold freshInput
  infer_instance

/-! ## Helper lemmas -/

theorem pyMin1_cons (key : α → Int) (x y : α) (ys : List α) :
    pyMin1 key x (y :: ys) = pyMin1 key (if key y < key x then y else x) ys := rfl

theorem pyMin1_mem (key : α → Int) :
    ∀ (xs : List α) (x : α), pyMin1 key x xs ∈ x :: xs := by
  intro xs
  induction xs with
  | nil => intro x; simp [pyMin1]
  | cons y ys ih =>
      intro x
      rw [pyMin1_cons]
      by_cases h : key y < key x
      · rw [if_pos h]
        have := ih y
        simp only [List.mem_cons] at this ⊢
        tauto
      · rw [if_neg h]
        have := ih x
        simp only [List.mem_cons] at this ⊢
        tauto

theorem pyMin1_le (key : α → Int) :
    ∀ (xs : List α) (x : α), ∀ z ∈ x :: xs, key (pyMin1 key x xs) ≤ key z := by
  intro xs
  induction xs with
  | nil => intro x z hz; simp at hz; subst hz; simp [pyMin1]
  | cons y ys ih =>
      intro x z hz
      rw [pyMin1_cons]
      by_cases h : key y < key x
      · rw [if_pos h]
        rcases List.mem_cons.mp hz with hzx | hz'
        · rw [hzx]; exact le_trans (ih y y (by simp)) (le_of_lt h)
        · exact ih y z hz'
      · rw [if_neg h]
        rcases List.mem_cons.mp hz with hzx | hz'
        · rw [hzx]; exact ih x x (by simp)
        · rcases List.mem_cons.mp hz' with hzy | hz''
          · rw [hzy]; exact le_trans (ih x x (by simp)) (le_of_not_lt h)
          · exact ih x z (List.mem_cons_of_mem _ hz'')

theorem find?_cons_true {p : α → Bool} {a : α} (l : List α) (h : p a = true) :
    (a :: l).find? p = some a := by simp [List.find?_cons, h]

theorem find?_cons_false {p : α → Bool} {a : α} (l : List α) (h : p a = false) :
    (a :: l).find? p = l.find? p := by simp [List.find?_cons, h]

theorem pyMin1_first (key : α → Int) :
    ∀ (xs : List α) (x : α),
      (x :: xs).find? (fun z => key z == key (pyMin1 key x xs))
        = some (pyMin1 key x xs) := by
  intro xs
  induction xs with
  | nil =>
      intro x
      exact find?_cons_true [] (by simp [pyMin1])
  | cons y ys ih =>
      intro x
      rw [pyMin1_cons]
      by_cases h : key y < key x
      · rw [if_pos h]
        have hmle : key (pyMin1 key y ys) ≤ key y := pyMin1_le key ys y y (by simp)
        have hx : (fun z => key z == key (pyMin1 key y ys)) x = false := by
          simp only [beq_eq_false_iff_ne, ne_eq]
          intro hc
          exact absurd (lt_of_lt_of_le h (hc ▸ hmle)) (lt_irrefl _)
        rw [@find?_cons_false _ (fun z => key z == key (pyMin1 key y ys)) x (y :: ys) hx]
        exact ih y
      · rw [if_neg h]
        have hthis := ih x
        have hmlex : key (pyMin1 key x ys) ≤ key x := pyMin1_le key ys x x (by simp)
        by_cases hx : key x = key (pyMin1 key x ys)
        · have hxb : (fun z => key z == key (pyMin1 key x ys)) x = true := by simp [hx]
          rw [@find?_cons_true _ (fun z => key z == key (pyMin1 key x ys)) x ys hxb] at hthis
          rw [@find?_cons_true _ (fun z => key z == key (pyMin1 key x ys)) x (y :: ys) hxb]
          exact hthis
        · have hxb : (fun z => key z == key (pyMin1 key x ys)) x = false := by
            simp only [beq_eq_false_iff_ne, ne_eq]; exact hx
          rw [@find?_cons_false _ (fun z => key z == key (pyMin1 key x ys)) x ys hxb] at hthis
          rw [@find?_cons_false _ (fun z => key z == key (pyMin1 key x ys)) x (y :: ys) hxb]
          have hy : (fun z => key z == key (pyMin1 key x ys)) y = false := by
            simp only [beq_eq_false_iff_ne, ne_eq]
            intro hc
            exact hx (le_antisymm (hc ▸ le_of_not_lt h) hmlex)
          rw [@find?_cons_false _ (fun z => key z == key (pyMin1 key x ys)) y ys hy]
          exact hthis

theorem pyMin_eq_some (key : α → Int) {l : List α} {m : α}
    (h : pyMin key l = some m) : m ∈ l ∧ ∀ z ∈ l, key m ≤ key z := by
  cases l with
  | nil => simp [pyMin] at h
  | cons x xs =>
      simp only [pyMin, Option.some.injEq] at h
      subst h
      exact ⟨pyMin1_mem key xs x, pyMin1_le key xs x⟩

theorem mem_replaceFirst {p : α → Bool} {b : α} :
    ∀ {l : List α} {z : α}, z ∈ replaceFirst p b l → z ∈ l ∨ z = b := by
  intro l
  induction l with
  | nil => intro z hz; simp [replaceFirst] at hz
  | cons x xs ih =>
      intro z hz
      unfold replaceFirst at hz
      by_cases h : p x = true
      · rw [if_pos h] at hz
        rcases List.mem_cons.mp hz with rfl | hz
        · right; rfl
        · left; exact List.mem_cons_of_mem _ hz
      · rw [if_neg h] at hz
        rcases List.mem_cons.mp hz with rfl | hz
        · left; simp
        · rcases ih hz with h1 | h1
          · left; exact List.mem_cons_of_mem _ h1
          · right; exact h1

theorem mem_eraseP {p : α → Bool} {l : List α} {z : α}
    (h : z ∈ l.eraseP p) : z ∈ l :=
  (List.eraseP_sublist l).subset h

theorem mem_sortInsert (key : α → Int) (x : α) :
    ∀ (l : List α) (z : α), z ∈ sortInsert key x l ↔ z = x ∨ z ∈ l := by
  intro l
  induction l with
  | nil => intro z; simp [sortInsert]
  | cons y ys ih =>
      intro z
      unfold sortInsert
      by_cases h : key y < key x
      · rw [if_pos h]
        simp only [List.mem_cons, ih]
        tauto
      · rw [if_neg h]
        simp

theorem mem_pySorted (key : α → Int) :
    ∀ (l : List α) (z : α), z ∈ pySorted key l ↔ z ∈ l := by
  intro l
  induction l with
  | nil => intro z; simp [pySorted]
  | cons x xs ih =>
      intro z
      unfold pySorted
      rw [mem_sortInsert]
      simp only [List.mem_cons, ih]

/-! ## Claims -/

/-- C10: the `remaining_time` value supplied to the `Job` constructor is
ignored — `__post_init__` overwrites it with `burst_time`, whatever the
caller passed. -/
theorem C10_remaining_time_equals_burst
    (job_id arrival_time burst_time remaining_time priority time_in_queue
     start_time completion_time : Int) (waiting_for_io : Bool)
    (io_return_time io_duration : Int) (io_operations : Option (List Int)) :
    (mkJob job_id arrival_time burst_time remaining_time priority
      time_in_queue start_time completion_time waiting_for_io io_return_time
      io_duration io_operations).remaining_time = burst_time := rfl

/-- C2 as stated is false: a quantum list of length 1 with 3 priority
levels, a negative burst time, and an I/O offset no smaller than the burst
time are all accepted by the constructors as ordinary values — no
construction-time check exists. -/
theorem C2_counterexample :
    (mkMLFQScheduler 3 (some [1]) none none).1.time_quantum.length = 1 ∧
    (mkMLFQScheduler 3 (some [1]) none none).1.num_queues = 3 ∧
    (mkMLFQScheduler 3 (some [1]) none none).2
      = ⟨[[], [], []], 0⟩ ∧
    (mkJobD 1 0 (-5) (-5)).burst_time = -5 ∧
    (mkJobD 1 0 (-5) (-5)).remaining_time = -5 ∧
    (mkJobWithIo 2 0 5 5 [7] 5).io_operations = [7] := by
  refine ⟨rfl, rfl, rfl, rfl, rfl, rfl⟩

/-- C2 amended: construction performs no validation at all — quantum and
allotment lists are stored exactly as given regardless of their length,
any burst time is accepted with `remaining_time` silently set to it, and
I/O offsets are only sorted ascending, never range-checked. -/
theorem C2_no_construction_validation :
    (∀ (nq : Nat) (l : List Int) (ta : Option (List Int)) (bi : Option Int),
        (mkMLFQScheduler nq (some l) ta bi).1.time_quantum = l) ∧
    (∀ (nq : Nat) (tq : Option (List Int)) (l : List Int) (bi : Option Int),
        (mkMLFQScheduler nq tq (some l) bi).1.time_allotments = l) ∧
    (∀ jid arr bt rt : Int, (mkJobD jid arr bt rt).remaining_time = bt) ∧
    (∀ (jid arr bt rt : Int) (ops : List Int) (dur : Int),
        (mkJobWithIo jid arr bt rt ops dur).io_operations = pySorted (fun t => t) ops) :=
  ⟨fun _ _ _ _ => rfl, fun _ _ _ _ => rfl, fun _ _ _ _ => rfl,
   fun _ _ _ _ _ _ => rfl⟩

/-- C4 as stated is false: with quantum 2 and two burst-10 jobs arriving at
0, job A completes at tick 18, not 20 — the jobs do not both finish at tick
20. -/
theorem C4_counterexample :
    (rrSchedule 2 100 [mkJobD 1 0 10 10, mkJobD 2 0 10 10]).map
        (fun x => x.1.map (fun j => (j.job_id, j.completion_time)))
      = some [(1, 18), (2, 20)] ∧ (18 : Int) ≠ 20 := by
  refine ⟨by decide, by decide⟩

/-- C4 amended: Round Robin with quantum 2 on A(burst 10), B(burst 10) both
arriving at 0 dispatches A and B alternately every 2 ticks; A completes at
tick 18 and B at tick 20, so both are done by tick 20 and A's completion
precedes B's by exactly 2 ticks. -/
theorem C4_round_robin_quantum2 :
    (rrSchedule 2 100 [mkJobD 1 0 10 10, mkJobD 2 0 10 10]).map
        (fun x => (x.1.map (fun j => (j.job_id, j.start_time, j.completion_time, j.remaining_time)),
                   x.2.1))
      = some ([(1, 0, 18, 0), (2, 2, 20, 0)],
              [(0, 1), (2, 2), (4, 1), (6, 2), (8, 1), (10, 2), (12, 1),
               (14, 2), (16, 1), (18, 2)]) ∧
    (20 : Int) - 18 = 2 := by
  refine ⟨by decide, by decide⟩

/-- C9: on a non-empty completed collection, `calculate_metrics` returns
turnaround = completion − arrival and response = start − arrival per job in
collection order with arithmetic-mean averages; on an empty collection the
mean is an error surfaced to the caller (`StatisticsError` in Python,
`none` here), not zero. -/
theorem C9_calculate_metrics (completed : List Job) (h : completed ≠ []) :
    calculate_metrics completed = some
      { avg_turnaround :=
          (((completed.map (fun j => j.completion_time - j.arrival_time)).sum : Int) : Rat)
            / (completed.length : Rat)
        avg_response :=
          (((completed.map (fun j => j.start_time - j.arrival_time)).sum : Int) : Rat)
            / (completed.length : Rat)
        turnaround_times := completed.map (fun j => j.completion_time - j.arrival_time)
        response_times := completed.map (fun j => j.start_time - j.arrival_time) } ∧
    calculate_metrics [] = none := by
  constructor
  · have h1 : completed.map (fun j => j.completion_time - j.arrival_time) ≠ [] := by
      simpa using h
    have h2 : completed.map (fun j => j.start_time - j.arrival_time) ≠ [] := by
      simpa using h
    unfold calculate_metrics mean
    simp [h1, h2, List.length_map]
  · rfl

/-- C9 witness at a concrete one-job collection. -/
theorem C9_calculate_metrics_witness :
    ([⟨1, 0, 5, 5, 0, 0, 2, 7, false, -1, 5, []⟩] : List Job) ≠ [] ∧
    (calculate_metrics [⟨1, 0, 5, 5, 0, 0, 2, 7, false, -1, 5, []⟩] = some
      { avg_turnaround :=
          (((([⟨1, 0, 5, 5, 0, 0, 2, 7, false, -1, 5, []⟩] : List Job).map
              (fun j => j.completion_time - j.arrival_time)).sum : Int) : Rat)
            / (([⟨1, 0, 5, 5, 0, 0, 2, 7, false, -1, 5, []⟩] : List Job).length : Rat)
        avg_response :=
          (((([⟨1, 0, 5, 5, 0, 0, 2, 7, false, -1, 5, []⟩] : List Job).map
              (fun j => j.start_time - j.arrival_time)).sum : Int) : Rat)
            / (([⟨1, 0, 5, 5, 0, 0, 2, 7, false, -1, 5, []⟩] : List Job).length : Rat)
        turnaround_times := ([⟨1, 0, 5, 5, 0, 0, 2, 7, false, -1, 5, []⟩] : List Job).map
          (fun j => j.completion_time - j.arrival_time)
        response_times := ([⟨1, 0, 5, 5, 0, 0, 2, 7, false, -1, 5, []⟩] : List Job).map
          (fun j => j.start_time - j.arrival_time) } ∧
      calculate_metrics [] = none) :=
  ⟨by decide, C9_calculate_metrics [⟨1, 0, 5, 5, 0, 0, 2, 7, false, -1, 5, []⟩] (by decide)⟩

/-- C7: under CFS, two burst-4 jobs arriving at 0 execute in the strict
alternation A,B,A,B,A,B,A,B; and in general the per-tick selection
`min(ready_jobs, key=vruntime)` returns a ready job of minimal vruntime and,
among the minima, the one earliest in the ready list (= earliest insertion
into the ready set). -/
theorem C7_cfs_alternation :
    ((cfsSchedule 100 [mkJobD 1 0 4 4, mkJobD 2 0 4 4]).map
        (fun x => (x.2.1, x.1.map (fun j => (j.job_id, j.completion_time))))
      = some ([(0, 1), (1, 2), (2, 1), (3, 2), (4, 1), (5, 2), (6, 1), (7, 2)],
              [(1, 7), (2, 8)])) ∧
    (∀ (vr : List (Int × Int)) (r : Job) (rs : List Job),
        pyMin1 (fun j => vrLookup vr j.job_id) r rs ∈ r :: rs ∧
        (∀ k ∈ r :: rs,
          vrLookup vr (pyMin1 (fun j => vrLookup vr j.job_id) r rs).job_id
            ≤ vrLookup vr k.job_id) ∧
        (r :: rs).find?
            (fun k => vrLookup vr k.job_id ==
              vrLookup vr (pyMin1 (fun j => vrLookup vr j.job_id) r rs).job_id)
          = some (pyMin1 (fun j => vrLookup vr j.job_id) r rs)) := by
  constructor
  · decide
  · intro vr r rs
    exact ⟨pyMin1_mem _ rs r, pyMin1_le _ rs r, pyMin1_first _ rs r⟩

/-- C6: an I/O yield/return cycle is a frame for `priority` and
`time_in_queue`.  (1) On the yield tick the job keeps `priority`,
`time_in_queue` and `remaining_time` exactly (only the consumed I/O offset,
the `waiting_for_io` flag and `io_return_time` change) — so the yield tick
does not increment `time_in_queue`; (2) retiring the yielded job parks it
in `io_jobs` unchanged — no demotion; (3) a priority boost never touches
`io_jobs`; arrivals, selection, execution and the clock tick leave
`io_jobs` untouched as well, and retirement only appends to it; (4) when
`io_return_time` is reached the job re-enters the ready queue of its
unchanged `priority` with unchanged `time_in_queue`, only `waiting_for_io`
being cleared, while unexpired jobs stay. -/
theorem C6_io_priority_frame :
    (∀ (s : MLFQState) (j : Job) (t : Int) (rest : List Int),
        s.current = some j → j.io_operations = t :: rest →
        j.burst_time - j.remaining_time = t →
        (phaseExec s).2.current = some
            { j with io_operations := rest, waiting_for_io := true
                     io_return_time := s.current_time + j.io_duration } ∧
          (phaseExec s).1 = ⟨s.current_time, j.job_id, j.priority, TLStatus.ioyield⟩ ∧
          (phaseExec s).2.quantum_remaining = s.quantum_remaining) ∧
    (∀ (cfg : MLFQConfig) (s : MLFQState) (j : Job),
        s.current = some j → j.waiting_for_io = true → 0 < j.remaining_time →
        phaseRetire cfg s
          = { s with io_jobs := s.io_jobs ++ [j], current := none, cpu_time_used := 0 }) ∧
    (∀ (cfg : MLFQConfig) (s : MLFQState),
        (phaseBoost cfg s).io_jobs = s.io_jobs ∧
        (phaseArrivals s).io_jobs = s.io_jobs ∧
        (phaseSelect cfg s).io_jobs = s.io_jobs ∧
        ((phaseExec s).2).io_jobs = s.io_jobs ∧
        (phaseTick s).io_jobs = s.io_jobs ∧
        ∃ l, (phaseRetire cfg s).io_jobs = s.io_jobs ++ l) ∧
    (∀ (current_time : Int) (queues : List (List Job)) (j : Job),
        j.io_return_time ≤ current_time →
        ioReturnStep current_time [j] queues
          = ([], qAppend queues j.priority { j with waiting_for_io := false })) ∧
    (∀ (current_time : Int) (io_jobs : List Job) (queues : List (List Job)),
        (ioReturnStep current_time io_jobs queues).1
          = io_jobs.filter (fun j => ¬ j.io_return_time ≤ current_time)) := by
  refine ⟨?_, ?_, ?_, ?_, ?_⟩
  · intro s j t rest hcur hio hcpu
    simp [phaseExec, hcur, needs_io, hio, hcpu]
  · intro cfg s j hcur hio hrem
    simp [phaseRetire, hcur, retireStep, hio, not_le.mpr hrem]
  · intro cfg s
    refine ⟨?_, ?_, ?_, ?_, ?_, ?_⟩
    · unfold phaseBoost
      split <;> rfl
    · rfl
    · unfold phaseSelect
      cases hc : s.current <;> simp
      cases hs : selectScan s.queues <;> simp
    · unfold phaseExec
      cases hc : s.current with
      | none => rfl
      | some j =>
          simp only []
          cases hio : needs_io j (j.burst_time - j.remaining_time) with
          | mk fst snd => cases fst <;> simp
    · rfl
    · unfold phaseRetire
      cases hc : s.current with
      | none => exact ⟨[], by simp⟩
      | some j =>
          dsimp only
          by_cases hcond : s.quantum_remaining ≤ 0 ∨ j.remaining_time ≤ 0 ∨ j.waiting_for_io = true
          · rw [if_pos hcond]
            unfold retireStep
            by_cases h1 : j.remaining_time ≤ 0
            · exact ⟨[], by simp [h1]⟩
            · by_cases h2 : j.waiting_for_io = true
              · exact ⟨[j], by simp [h1, h2]⟩
              · exact ⟨[], by simp [h1, h2]⟩
          · rw [if_neg hcond]
            exact ⟨[], by simp⟩
  · intro current_time queues j h
    simp [ioReturnStep, h]
  · intro current_time io_jobs queues
    rfl

/-- C6 witness: the yield, parking and return parts evaluated at concrete
states (a priority-1 job with `time_in_queue = 2` yielding at CPU time 2 at
tick 7, parked while running, and returning at tick 7). -/
theorem C6_io_priority_frame_witness :
    ((⟨[], [[], [], []], [], some ⟨1, 0, 5, 3, 1, 2, 0, -1, false, -1, 5, [2]⟩,
        2, 0, [], 7, 0⟩ : MLFQState).current
        = some ⟨1, 0, 5, 3, 1, 2, 0, -1, false, -1, 5, [2]⟩) ∧
    ((⟨1, 0, 5, 3, 1, 2, 0, -1, false, -1, 5, [2]⟩ : Job).burst_time
        - (⟨1, 0, 5, 3, 1, 2, 0, -1, false, -1, 5, [2]⟩ : Job).remaining_time = 2) ∧
    ((phaseExec ⟨[], [[], [], []], [], some ⟨1, 0, 5, 3, 1, 2, 0, -1, false, -1, 5, [2]⟩,
        2, 0, [], 7, 0⟩).2.current
        = some ⟨1, 0, 5, 3, 1, 2, 0, -1, true, 7 + 5, 5, []⟩ ∧
      (phaseExec ⟨[], [[], [], []], [], some ⟨1, 0, 5, 3, 1, 2, 0, -1, false, -1, 5, [2]⟩,
        2, 0, [], 7, 0⟩).1 = ⟨7, 1, 1, TLStatus.ioyield⟩ ∧
      (phaseExec ⟨[], [[], [], []], [], some ⟨1, 0, 5, 3, 1, 2, 0, -1, false, -1, 5, [2]⟩,
        2, 0, [], 7, 0⟩).2.quantum_remaining = 2) ∧
    (0 < (⟨1, 0, 5, 3, 1, 2, 0, -1, true, 12, 5, []⟩ : Job).remaining_time) ∧
    (phaseRetire ⟨3, [1, 2, 4], [2, 4, 8], none⟩
        ⟨[], [[], [], []], [], some ⟨1, 0, 5, 3, 1, 2, 0, -1, true, 12, 5, []⟩, 0, 1, [], 7, 0⟩
        = ⟨[], [[], [], []], [⟨1, 0, 5, 3, 1, 2, 0, -1, true, 12, 5, []⟩], none, 0, 0, [], 7, 0⟩) ∧
    ((⟨1, 0, 5, 3, 1, 2, 0, -1, true, 6, 5, []⟩ : Job).io_return_time ≤ 7) ∧
    (ioReturnStep 7 [⟨1, 0, 5, 3, 1, 2, 0, -1, true, 6, 5, []⟩] [[], [], []]
        = ([], qAppend [[], [], []] 1 ⟨1, 0, 5, 3, 1, 2, 0, -1, false, 6, 5, []⟩)) :=
  ⟨rfl, by decide,
   C6_io_priority_frame.1 _ ⟨1, 0, 5, 3, 1, 2, 0, -1, false, -1, 5, [2]⟩ 2 [] rfl rfl (by decide),
   by decide,
   C6_io_priority_frame.2.1 ⟨3, [1, 2, 4], [2, 4, 8], none⟩ _
     ⟨1, 0, 5, 3, 1, 2, 0, -1, true, 12, 5, []⟩ rfl rfl (by decide),
   by decide,
   C6_io_priority_frame.2.2.2.1 7 [[], [], []]
     ⟨1, 0, 5, 3, 1, 2, 0, -1, true, 6, 5, []⟩ (by decide)⟩

/-! ## Rerun determinism machinery (C3)

Only `self.queues` and `self.time_since_boost` survive between `schedule`
calls.  When no boost interval is configured the loop never reads
`time_since_boost`, and a completed run always leaves every queue empty. -/

theorem boostCond_none (t : Int) : ¬ boostCond none t := fun h => h

theorem phaseBoost_none (cfg : MLFQConfig) (s : MLFQState)
    (h : cfg.boost_interval = none) : phaseBoost cfg s = s := by
  unfold phaseBoost
  rw [if_neg]
  rw [h]
  exact boostCond_none _

theorem phaseIOReturn_tsb (s : MLFQState) (b : Int) :
    phaseIOReturn { s with time_since_boost := b }
      = { phaseIOReturn s with time_since_boost := b } := rfl

theorem phaseArrivals_tsb (s : MLFQState) (b : Int) :
    phaseArrivals { s with time_since_boost := b }
      = { phaseArrivals s with time_since_boost := b } := rfl

theorem phaseRetire_tsb (cfg : MLFQConfig) (s : MLFQState) (b : Int) :
    phaseRetire cfg { s with time_since_boost := b }
      = { phaseRetire cfg s with time_since_boost := b } := by
  obtain ⟨w, qs, io, cur, qr, cpu, comp, t, tsb⟩ := s
  cases cur with
  | none => rfl
  | some j =>
      unfold phaseRetire
      dsimp only
      by_cases hcond : qr ≤ 0 ∨ j.remaining_time ≤ 0 ∨ j.waiting_for_io = true
      · rw [if_pos hcond, if_pos hcond]
      · rw [if_neg hcond, if_neg hcond]

theorem phaseSelect_tsb (cfg : MLFQConfig) (s : MLFQState) (b : Int) :
    phaseSelect cfg { s with time_since_boost := b }
      = { phaseSelect cfg s with time_since_boost := b } := by
  obtain ⟨w, qs, io, cur, qr, cpu, comp, t, tsb⟩ := s
  cases cur with
  | some j => rfl
  | none =>
      unfold phaseSelect
      dsimp only
      cases hs : selectScan qs with
      | none => rfl
      | some x => rfl

theorem phaseExec_tsb (s : MLFQState) (b : Int) :
    phaseExec { s with time_since_boost := b }
      = ((phaseExec s).1, { (phaseExec s).2 with time_since_boost := b }) := by
  obtain ⟨w, qs, io, cur, qr, cpu, comp, t, tsb⟩ := s
  cases cur with
  | none => rfl
  | some j =>
      unfold phaseExec
      dsimp only
      cases hn : needs_io j (j.burst_time - j.remaining_time) with
      | mk fst snd => cases fst <;> rfl

theorem phaseTick_tsb (s : MLFQState) (b : Int) :
    phaseTick { s with time_since_boost := b }
      = { phaseTick s with time_since_boost := b + 1 } := rfl

theorem mlfqStep_tsb (cfg : MLFQConfig) (s : MLFQState) (b : Int)
    (h : cfg.boost_interval = none) :
    mlfqStep cfg { s with time_since_boost := b }
      = ((mlfqStep cfg s).1, { (mlfqStep cfg s).2 with time_since_boost := b + 1 }) := by
  unfold mlfqStep
  rw [phaseBoost_none cfg _ h, phaseBoost_none cfg s h,
      phaseIOReturn_tsb, phaseArrivals_tsb, phaseRetire_tsb, phaseSelect_tsb]
  dsimp only
  rw [phaseExec_tsb]
  dsimp only
  rw [phaseTick_tsb]

theorem mlfqDone_tsb (s : MLFQState) (b : Int) :
    mlfqDone { s with time_since_boost := b } ↔ mlfqDone s := Iff.rfl

theorem mlfqLoop_tsb (cfg : MLFQConfig) (h : cfg.boost_interval = none) :
    ∀ (fuel : Nat) (s : MLFQState) (b : Int),
      (mlfqLoop cfg fuel { s with time_since_boost := b }).map
          (fun x => (x.1, x.2.1, x.2.2.1))
        = (mlfqLoop cfg fuel s).map (fun x => (x.1, x.2.1, x.2.2.1)) := by
  intro fuel
  induction fuel with
  | zero => intro s b; rfl
  | succ n ih =>
      intro s b
      unfold mlfqLoop
      by_cases hd : mlfqDone s
      · rw [if_pos hd, if_pos ((mlfqDone_tsb s b).mpr hd)]
        rfl
      · rw [if_neg hd, if_neg (fun hc => hd ((mlfqDone_tsb s b).mp hc))]
        rw [mlfqStep_tsb cfg s b h]
        dsimp only
        rw [Option.map_map, Option.map_map]
        have hih := ih (mlfqStep cfg s).2 (b + 1)
        calc (mlfqLoop cfg n { (mlfqStep cfg s).2 with time_since_boost := b + 1 }).map
                ((fun x => (x.1, (mlfqStep cfg s).1 :: x.2.1, x.2.2)) ∘ fun x => (x.1, x.2.1, x.2.2.1))
            = ((mlfqLoop cfg n { (mlfqStep cfg s).2 with time_since_boost := b + 1 }).map
                (fun x => (x.1, x.2.1, x.2.2.1))).map
                  (fun x => (x.1, (mlfqStep cfg s).1 :: x.2.1, x.2.2)) := by
              rw [Option.map_map]
          _ = ((mlfqLoop cfg n (mlfqStep cfg s).2).map (fun x => (x.1, x.2.1, x.2.2.1))).map
                  (fun x => (x.1, (mlfqStep cfg s).1 :: x.2.1, x.2.2)) := by rw [hih]
          _ = (mlfqLoop cfg n (mlfqStep cfg s).2).map
                ((fun x => (x.1, (mlfqStep cfg s).1 :: x.2.1, x.2.2)) ∘ fun x => (x.1, x.2.1, x.2.2.1)) := by
              rw [Option.map_map]

theorem qAppend_length (qs : List (List Job)) (i : Int) (j : Job) :
    (qAppend qs i j).length = qs.length := by
  simp [qAppend]

theorem foldl_qAppend_length (l : List Job) :
    ∀ qs : List (List Job),
      (l.foldl (fun qs j => qAppend qs j.priority { j with waiting_for_io := false }) qs).length
        = qs.length := by
  induction l with
  | nil => intro qs; rfl
  | cons x xs ih =>
      intro qs
      rw [List.foldl_cons, ih, qAppend_length]

theorem ioReturnStep_length (t : Int) (io : List Job) (qs : List (List Job)) :
    (ioReturnStep t io qs).2.length = qs.length := by
  unfold ioReturnStep
  exact foldl_qAppend_length _ qs

theorem mlfqArrivals_length (t : Int) :
    ∀ (w : List Job) (qs : List (List Job)),
      (mlfqArrivals t w qs).2.length = qs.length := by
  intro w
  induction w with
  | nil => intro qs; rfl
  | cons x xs ih =>
      intro qs
      unfold mlfqArrivals
      by_cases h : x.arrival_time ≤ t
      · rw [if_pos h, ih, qAppend_length]
      · rw [if_neg h]

theorem boost_all_jobs_length (qs : List (List Job)) (c : Option Job) :
    (boost_all_jobs qs c).1.length = qs.length := by
  simp [boost_all_jobs]

theorem selectScan_length :
    ∀ (qs : List (List Job)) (j : Job) (p : Nat) (qs' : List (List Job)),
      selectScan qs = some (j, p, qs') → qs'.length = qs.length := by
  intro qs
  induction qs with
  | nil => intro j p qs' h; exact Option.noConfusion h
  | cons q rest ih =>
      intro j p qs' h
      cases q with
      | nil =>
          unfold selectScan at h
          cases hs : selectScan rest with
          | none => rw [hs] at h; simp at h
          | some x =>
              rw [hs] at h
              simp only [Option.map_some', Option.some.injEq] at h
              rcases x with ⟨j', p', rest'⟩
              cases h
              simpa using ih j' p' rest' hs
      | cons a q' =>
          unfold selectScan at h
          simp only [Option.some.injEq] at h
          cases h
          simp

theorem phaseBoost_qlen (cfg : MLFQConfig) (s : MLFQState) :
    (phaseBoost cfg s).queues.length = s.queues.length := by
  unfold phaseBoost
  split
  · exact boost_all_jobs_length s.queues s.current
  · rfl

theorem phaseIOReturn_qlen (s : MLFQState) :
    (phaseIOReturn s).queues.length = s.queues.length :=
  ioReturnStep_length s.current_time s.io_jobs s.queues

theorem phaseArrivals_qlen (s : MLFQState) :
    (phaseArrivals s).queues.length = s.queues.length :=
  mlfqArrivals_length s.current_time s.waiting s.queues

theorem retireStep_qlen (cfg : MLFQConfig) (t : Int) (j : Job)
    (qs : List (List Job)) (io comp : List Job) :
    (retireStep cfg t j qs io comp).1.length = qs.length := by
  unfold retireStep
  by_cases h1 : j.remaining_time ≤ 0
  · rw [if_pos h1]
  · rw [if_neg h1]
    by_cases h2 : j.waiting_for_io = true
    · rw [if_pos h2]
    · rw [if_neg h2]
      exact qAppend_length _ _ _

theorem phaseRetire_qlen (cfg : MLFQConfig) (s : MLFQState) :
    (phaseRetire cfg s).queues.length = s.queues.length := by
  unfold phaseRetire
  cases hc : s.current with
  | none => rfl
  | some j =>
      dsimp only
      by_cases hcond : s.quantum_remaining ≤ 0 ∨ j.remaining_time ≤ 0 ∨ j.waiting_for_io = true
      · rw [if_pos hcond]
        exact retireStep_qlen cfg s.current_time j s.queues s.io_jobs s.completed
      · rw [if_neg hcond]

theorem phaseSelect_qlen (cfg : MLFQConfig) (s : MLFQState) :
    (phaseSelect cfg s).queues.length = s.queues.length := by
  unfold phaseSelect
  cases hc : s.current with
  | some j => rfl
  | none =>
      dsimp only
      cases hs : selectScan s.queues with
      | none => rfl
      | some x =>
          rcases x with ⟨j, p, qs'⟩
          exact selectScan_length s.queues j p qs' hs

theorem phaseExec_queues (s : MLFQState) : ((phaseExec s).2).queues = s.queues := by
  unfold phaseExec
  cases hc : s.current with
  | none => rfl
  | some j =>
      dsimp only
      cases hn : needs_io j (j.burst_time - j.remaining_time) with
      | mk fst snd => cases fst <;> rfl

theorem mlfqStep_qlen (cfg : MLFQConfig) (s : MLFQState) :
    ((mlfqStep cfg s).2).queues.length = s.queues.length := by
  unfold mlfqStep
  dsimp only
  rw [show ∀ u : MLFQState, (phaseTick u).queues = u.queues from fun _ => rfl]
  rw [phaseExec_queues]
  rw [phaseSelect_qlen, phaseRetire_qlen, phaseArrivals_qlen, phaseIOReturn_qlen,
      phaseBoost_qlen]

theorem mlfqLoop_final (cfg : MLFQConfig) :
    ∀ (fuel : Nat) (s : MLFQState) (c : List Job) (tl : List TLEntry)
      (qf : List (List Job)) (bf : Int),
      mlfqLoop cfg fuel s = some (c, tl, qf, bf) →
      (∀ q ∈ qf, q = []) ∧ qf.length = s.queues.length := by
  intro fuel
  induction fuel with
  | zero => intro s c tl qf bf h; simp [mlfqLoop] at h
  | succ n ih =>
      intro s c tl qf bf h
      unfold mlfqLoop at h
      by_cases hd : mlfqDone s
      · rw [if_pos hd] at h
        simp only [Option.some.injEq] at h
        obtain ⟨rfl, rfl, rfl, rfl⟩ := h
        refine ⟨?_, rfl⟩
        intro q hq
        have hall := hd.2.1
        rw [List.all_eq_true] at hall
        have := hall q hq
        exact List.isEmpty_iff.mp (by simpa using this)
      · rw [if_neg hd] at h
        cases hl : mlfqLoop cfg n (mlfqStep cfg s).2 with
        | none => rw [hl] at h; simp at h
        | some x =>
            rw [hl] at h
            rcases x with ⟨c', tl', qf', bf'⟩
            have hfin := ih (mlfqStep cfg s).2 c' tl' qf' bf' hl
            simp only [Option.map_some', Option.some.injEq, Prod.mk.injEq] at h
            obtain ⟨-, -, rfl, -⟩ := h
            exact ⟨hfin.1, hfin.2.trans (mlfqStep_qlen cfg s)⟩

theorem allEmpty_eq :
    ∀ (l1 l2 : List (List Job)), l1.length = l2.length →
      (∀ q ∈ l1, q = []) → (∀ q ∈ l2, q = []) → l1 = l2 := by
  intro l1
  induction l1 with
  | nil =>
      intro l2 hlen _ _
      cases l2 with
      | nil => rfl
      | cons b m => simp at hlen
  | cons a l ih =>
      intro l2 hlen h1 h2
      cases l2 with
      | nil => simp at hlen
      | cons b m =>
          have ha : a = [] := h1 a (by simp)
          have hb : b = [] := h2 b (by simp)
          rw [ha, hb, ih m (by simpa using hlen)
            (fun q hq => h1 q (List.mem_cons_of_mem _ hq))
            (fun q hq => h2 q (List.mem_cons_of_mem _ hq))]

/-- C3 as stated is false: for an `MLFQScheduler` constructed with
`boost_interval = 10`, the `time_since_boost` counter left behind by a
first `schedule` run (here 1) shifts the second run's boosts (tick 9
instead of tick 10 for a single burst-20 job), so the two runs return
different timelines — the second run observes state left behind by the
first. -/
theorem C3_counterexample :
    ((mlfqSchedule (mkMLFQScheduler 3 none none (some 10)).1
        (mkMLFQScheduler 3 none none (some 10)).2 100 [mkJobD 1 0 20 20]).map
          Prod.snd = some ⟨[[], [], []], 1⟩) ∧
    ((mlfqSchedule (mkMLFQScheduler 3 none none (some 10)).1
        (mkMLFQScheduler 3 none none (some 10)).2 100 [mkJobD 1 0 20 20]).map
          (fun x => x.1.2.2.map (fun e => (e.time, e.priority)))
      ≠ (mlfqSchedule (mkMLFQScheduler 3 none none (some 10)).1
          ⟨[[], [], []], 1⟩ 100 [mkJobD 1 0 20 20]).map
            (fun x => x.1.2.2.map (fun e => (e.time, e.priority)))) := by
  refine ⟨by decide, by decide⟩

/-- C3 amended: every engine except MLFQ keeps no instance state, so
repeated `schedule` calls are invocations of the same pure function; for
MLFQ, a completed run always leaves every queue empty, and when no boost
interval is configured the leftover `time_since_boost` counter is never
read, so a second run on the same instance returns exactly the same
completed jobs, metrics and timeline.  With a boost interval configured the
property fails (see the counterexample). -/
theorem mlfqState_eq_up_to_tsb (s1 s2 : MLFQState)
    (hw : s1.waiting = s2.waiting) (hq : s1.queues = s2.queues)
    (hio : s1.io_jobs = s2.io_jobs) (hc : s1.current = s2.current)
    (hqr : s1.quantum_remaining = s2.quantum_remaining)
    (hcpu : s1.cpu_time_used = s2.cpu_time_used)
    (hcomp : s1.completed = s2.completed) (ht : s1.current_time = s2.current_time) :
    s1 = { s2 with time_since_boost := s1.time_since_boost } := by
  cases s1; cases s2
  simp_all

theorem C3_mlfq_rerun_deterministic (cfg : MLFQConfig) (p p' : MLFQPersist)
    (fuel : Nat) (jobs : List Job) (out : List Job × Metrics × List TLEntry)
    (hb : cfg.boost_interval = none)
    (hq : ∀ q ∈ p.queues, q = [])
    (h1 : mlfqSchedule cfg p fuel jobs = some (out, p')) :
    ∃ p'', mlfqSchedule cfg p' fuel jobs = some (out, p'') := by
  unfold mlfqSchedule at h1 ⊢
  cases hL : mlfqLoop cfg fuel
      { waiting := pySorted (fun j => j.arrival_time) jobs, queues := p.queues
        io_jobs := [], current := none, quantum_remaining := 0
        cpu_time_used := 0, completed := [], current_time := 0
        time_since_boost := p.time_since_boost } with
  | none => rw [hL] at h1; exact Option.noConfusion h1
  | some x =>
      rw [hL] at h1
      rcases x with ⟨c, tl, qf, bf⟩
      have hfin := mlfqLoop_final cfg fuel _ c tl qf bf hL
      have hqf : qf = p.queues := allEmpty_eq qf p.queues (by simpa using hfin.2) hfin.1 hq
      dsimp only at h1
      cases hm : calculate_metrics c with
      | none => rw [hm] at h1; exact Option.noConfusion h1
      | some m =>
          rw [hm] at h1
          simp only [Option.some.injEq, Prod.mk.injEq] at h1
          obtain ⟨h1a, h1b⟩ := h1
          subst h1a
          subst h1b
          -- the second run starts from the same state, up to `time_since_boost`
          dsimp only
          have hproj := mlfqLoop_tsb cfg hb fuel
            { waiting := pySorted (fun j => j.arrival_time) jobs, queues := p.queues
              io_jobs := [], current := none, quantum_remaining := 0
              cpu_time_used := 0, completed := [], current_time := 0
              time_since_boost := p.time_since_boost } bf
          have hs2 : ({ waiting := pySorted (fun j => j.arrival_time) jobs, queues := qf
                        io_jobs := [], current := none, quantum_remaining := 0
                        cpu_time_used := 0, completed := [], current_time := 0
                        time_since_boost := bf } : MLFQState)
              = { ({ waiting := pySorted (fun j => j.arrival_time) jobs, queues := p.queues
                     io_jobs := [], current := none, quantum_remaining := 0
                     cpu_time_used := 0, completed := [], current_time := 0
                     time_since_boost := p.time_since_boost } : MLFQState)
                  with time_since_boost := bf } :=
            mlfqState_eq_up_to_tsb _ _ rfl hqf rfl rfl rfl rfl rfl rfl
          rw [← hs2, hL] at hproj
          cases hL2 : mlfqLoop cfg fuel
              { waiting := pySorted (fun j => j.arrival_time) jobs, queues := qf
                io_jobs := [], current := none, quantum_remaining := 0
                cpu_time_used := 0, completed := [], current_time := 0
                time_since_boost := bf } with
          | none => rw [hL2] at hproj; exact Option.noConfusion hproj
          | some y =>
              rw [hL2] at hproj
              rcases y with ⟨c2, tl2, qf2, bf2⟩
              simp only [Option.map_some', Option.some.injEq, Prod.mk.injEq] at hproj
              obtain ⟨hc2, htl2, hqf2⟩ := hproj
              subst hc2
              subst htl2
              subst hqf2
              refine ⟨⟨qf2, bf2⟩, ?_⟩
              dsimp only
              rw [hm]

/-- C3 witness: a no-boost MLFQ run of one burst-2 job, rerun from the
instance state the first run left behind (`time_since_boost = 3`), returns
the same output. -/
theorem C3_mlfq_rerun_deterministic_witness :
    ((mkMLFQScheduler 3 none none none).1.boost_interval = none) ∧
    (∀ q ∈ (⟨[[], [], []], 0⟩ : MLFQPersist).queues, q = []) ∧
    (mlfqSchedule (mkMLFQScheduler 3 none none none).1 ⟨[[], [], []], 0⟩ 10
        [mkJobD 1 0 2 2]
      = some (([⟨1, 0, 2, 0, 0, 2, 0, 2, false, -1, 5, []⟩],
               ⟨2, 0, [2], [0]⟩,
               [⟨0, 1, 0, TLStatus.running⟩, ⟨1, 1, 0, TLStatus.running⟩,
                ⟨2, -1, -1, TLStatus.idle⟩]),
              ⟨[[], [], []], 3⟩)) ∧
    (∃ p'', mlfqSchedule (mkMLFQScheduler 3 none none none).1 ⟨[[], [], []], 3⟩ 10
        [mkJobD 1 0 2 2]
      = some (([⟨1, 0, 2, 0, 0, 2, 0, 2, false, -1, 5, []⟩],
               ⟨2, 0, [2], [0]⟩,
               [⟨0, 1, 0, TLStatus.running⟩, ⟨1, 1, 0, TLStatus.running⟩,
                ⟨2, -1, -1, TLStatus.idle⟩]), p'')) :=
  ⟨rfl, by decide,
   by
    unfold mlfqSchedule
    rw [show mlfqLoop (mkMLFQScheduler 3 none none none).1 10
        { waiting := pySorted (fun j => j.arrival_time) [mkJobD 1 0 2 2]
          queues := (⟨[[], [], []], 0⟩ : MLFQPersist).queues, io_jobs := []
          current := none, quantum_remaining := 0, cpu_time_used := 0
          completed := [], current_time := 0
          time_since_boost := (⟨[[], [], []], 0⟩ : MLFQPersist).time_since_boost }
        = some ([⟨1, 0, 2, 0, 0, 2, 0, 2, false, -1, 5, []⟩],
                [⟨0, 1, 0, TLStatus.running⟩, ⟨1, 1, 0, TLStatus.running⟩,
                 ⟨2, -1, -1, TLStatus.idle⟩], [[], [], []], 3) from by decide]
    dsimp only
    unfold calculate_metrics mean
    norm_num,
   C3_mlfq_rerun_deterministic (mkMLFQScheduler 3 none none none).1
     ⟨[[], [], []], 0⟩ ⟨[[], [], []], 3⟩ 10 [mkJobD 1 0 2 2]
     (([⟨1, 0, 2, 0, 0, 2, 0, 2, false, -1, 5, []⟩],
       ⟨2, 0, [2], [0]⟩,
       [⟨0, 1, 0, TLStatus.running⟩, ⟨1, 1, 0, TLStatus.running⟩,
        ⟨2, -1, -1, TLStatus.idle⟩]))
     rfl (by decide)
     (by
      unfold mlfqSchedule
      rw [show mlfqLoop (mkMLFQScheduler 3 none none none).1 10
          { waiting := pySorted (fun j => j.arrival_time) [mkJobD 1 0 2 2]
            queues := (⟨[[], [], []], 0⟩ : MLFQPersist).queues, io_jobs := []
            current := none, quantum_remaining := 0, cpu_time_used := 0
            completed := [], current_time := 0
            time_since_boost := (⟨[[], [], []], 0⟩ : MLFQPersist).time_since_boost }
          = some ([⟨1, 0, 2, 0, 0, 2, 0, 2, false, -1, 5, []⟩],
                  [⟨0, 1, 0, TLStatus.running⟩, ⟨1, 1, 0, TLStatus.running⟩,
                   ⟨2, -1, -1, TLStatus.idle⟩], [[], [], []], 3) from by decide]
      dsimp only
      unfold calculate_metrics mean
      norm_num)⟩

/-! ## CFS vruntime-table machinery (C8) -/

theorem replaceFirst_mem {p : α → Bool} {b : α} :
    ∀ {l : List α}, (∃ x ∈ l, p x = true) → b ∈ replaceFirst p b l := by
  intro l
  induction l with
  | nil => intro h; rcases h with ⟨x, hx, _⟩; cases hx
  | cons y ys ih =>
      intro h
      unfold replaceFirst
      by_cases hy : p y = true
      · rw [if_pos hy]; simp
      · rw [if_neg hy]
        rcases h with ⟨x, hx, hpx⟩
        rcases List.mem_cons.mp hx with hxy | hx'
        · exact absurd (hxy ▸ hpx) hy
        · exact List.mem_cons_of_mem _ (ih ⟨x, hx', hpx⟩)

theorem replaceFirst_map_id {p : Job → Bool} {b : Job}
    (hid : ∀ x : Job, p x = true → x.job_id = b.job_id) :
    ∀ l : List Job, (replaceFirst p b l).map Job.job_id = l.map Job.job_id := by
  intro l
  induction l with
  | nil => rfl
  | cons y ys ih =>
      unfold replaceFirst
      by_cases hy : p y = true
      · rw [if_pos hy]
        simp only [List.map_cons]
        rw [hid y hy]
      · rw [if_neg hy]
        simp only [List.map_cons, ih]

theorem vrSet_keys_present {vr : List (Int × Int)} {id v : Int}
    (h : vr.any (fun q => q.1 == id) = true) :
    (vrSet vr id v).map Prod.fst = vr.map Prod.fst := by
  unfold vrSet
  rw [if_pos h]
  rw [List.map_map]
  apply List.map_congr_left
  intro q _
  simp only [Function.comp_apply]
  by_cases hq : (q.1 == id) = true
  · rw [if_pos hq]
    exact (beq_iff_eq.mp hq).symm
  · rw [if_neg hq]

theorem vrSet_absent {vr : List (Int × Int)} {id v : Int}
    (h : ¬ vr.any (fun q => q.1 == id) = true) :
    vrSet vr id v = vr ++ [(id, v)] := by
  unfold vrSet
  rw [if_neg h]

theorem vrLookup_cons_ne {k v : Int} {vr : List (Int × Int)} {id : Int}
    (h : k ≠ id) : vrLookup ((k, v) :: vr) id = vrLookup vr id := by
  unfold vrLookup
  rw [@find?_cons_false _ (fun p => p.1 == id) (k, v) vr (by simpa using h)]

theorem vrLookup_cons_eq {k v : Int} {vr : List (Int × Int)} :
    vrLookup ((k, v) :: vr) k = v := by
  unfold vrLookup
  rw [@find?_cons_true _ (fun p => p.1 == k) (k, v) vr (by simp)]
  rfl

theorem vrValues_eq :
    ∀ (vr : List (Int × Int)) (ready : List Job),
      vr.map Prod.fst = ready.map Job.job_id → (vr.map Prod.fst).Nodup →
      vr.map Prod.snd = ready.map (fun j => vrLookup vr j.job_id) := by
  intro vr
  induction vr with
  | nil =>
      intro ready hk _
      cases ready with
      | nil => rfl
      | cons r rs => simp at hk
  | cons q vr' ih =>
      intro ready hk hn
      cases ready with
      | nil => simp at hk
      | cons r rs =>
          rcases q with ⟨k, v⟩
          simp only [List.map_cons, List.cons.injEq] at hk
          obtain ⟨hkr, hktail⟩ := hk
          simp only [List.map_cons, List.nodup_cons] at hn
          obtain ⟨hknot, hn'⟩ := hn
          simp only [List.map_cons, List.cons.injEq]
          constructor
          · rw [hkr, vrLookup_cons_eq]
          · rw [ih rs hktail hn']
            apply List.map_congr_left
            intro j hj
            have hjid : j.job_id ∈ vr'.map Prod.fst := by
              rw [hktail]; exact List.mem_map_of_mem _ hj
            have hkne : k ≠ j.job_id := fun hc => hknot (hc ▸ hjid)
            rw [vrLookup_cons_ne hkne]

theorem minVruntime_refines (vr : List (Int × Int)) (ready : List Job)
    (hk : vr.map Prod.fst = ready.map Job.job_id) (hn : (vr.map Prod.fst).Nodup) :
    minVruntime vr
      = (pyMinInt (ready.map (fun j => vrLookup vr j.job_id))).getD 0 := by
  unfold minVruntime vrValues
  rw [vrValues_eq vr ready hk hn]
  cases pyMinInt (ready.map (fun j => vrLookup vr j.job_id)) <;> rfl

theorem eraseP_ids_correspond :
    ∀ (vr : List (Int × Int)) (ready : List Job) (jid : Int) (b3 : Job),
      vr.map Prod.fst = ready.map Job.job_id → (ready.map Job.job_id).Nodup →
      b3.job_id = jid → b3 ∈ ready →
      (vr.eraseP (fun q => q.1 == jid)).map Prod.fst
        = (ready.eraseP (fun k => k == b3)).map Job.job_id := by
  intro vr
  induction vr with
  | nil =>
      intro ready jid b3 hk _ _ hmem
      cases ready with
      | nil => cases hmem
      | cons r rs => simp at hk
  | cons q vr' ih =>
      intro ready jid b3 hk hn hb3 hmem
      cases ready with
      | nil => simp at hk
      | cons r rs =>
          rcases q with ⟨k, v⟩
          simp only [List.map_cons, List.cons.injEq] at hk
          obtain ⟨hkr, hktail⟩ := hk
          by_cases hrb : (r == b3) = true
          · have hr : r = b3 := beq_iff_eq.mp hrb
            have hkj : (k == jid) = true := by
              rw [beq_iff_eq, hkr, hr, hb3]
            rw [List.eraseP_cons, List.eraseP_cons, hrb, hkj]
            simp only [cond_true]
            exact hktail
          · have hr : r ≠ b3 := fun hc => hrb (beq_iff_eq.mpr hc)
            have hmem' : b3 ∈ rs := by
              rcases List.mem_cons.mp hmem with hc | hc
              · exact absurd hc.symm hr
              · exact hc
            simp only [List.map_cons, List.nodup_cons] at hn
            obtain ⟨hrnot, hn'⟩ := hn
            have hkj : ¬ (k == jid) = true := by
              rw [beq_iff_eq, hkr]
              intro hc
              apply hrnot
              rw [hc, ← hb3]
              exact List.mem_map_of_mem _ hmem'
            have hrb' : (r == b3) = false := Bool.eq_false_iff.mpr hrb
            have hkj' : (k == jid) = false := Bool.eq_false_iff.mpr hkj
            rw [List.eraseP_cons, List.eraseP_cons, hrb', hkj']
            simp only [cond_false, List.map_cons, List.cons.injEq]
            exact ⟨hkr, ih rs jid b3 hktail hn' hb3 hmem'⟩

theorem eraseP_key_gone :
    ∀ (vr : List (Int × Int)) (jid : Int), (vr.map Prod.fst).Nodup →
      jid ∉ (vr.eraseP (fun q => q.1 == jid)).map Prod.fst := by
  intro vr
  induction vr with
  | nil => intro jid _ h; cases h
  | cons q vr' ih =>
      intro jid hn
      rcases q with ⟨k, v⟩
      simp only [List.map_cons, List.nodup_cons] at hn
      obtain ⟨hknot, hn'⟩ := hn
      by_cases hk : (k == jid) = true
      · rw [List.eraseP_cons, hk]
        simp only [cond_true]
        rw [beq_iff_eq.mp hk] at hknot
        exact hknot
      · rw [List.eraseP_cons, Bool.eq_false_iff.mpr hk]
        simp only [cond_false, List.map_cons, List.mem_cons]
        intro hc
        rcases hc with hc | hc
        · exact hk (beq_iff_eq.mpr hc.symm)
        · exact ih jid hn' hc

theorem cfsArrivals_inv (t : Int) :
    ∀ (w ready : List Job) (vr : List (Int × Int)),
      vr.map Prod.fst = ready.map Job.job_id →
      (ready.map Job.job_id ++ w.map Job.job_id).Nodup →
      ((cfsArrivals t w ready vr).2.2.map Prod.fst
          = (cfsArrivals t w ready vr).2.1.map Job.job_id) ∧
      ((cfsArrivals t w ready vr).2.1.map Job.job_id
          ++ (cfsArrivals t w ready vr).1.map Job.job_id).Nodup ∧
      (∃ d : List Job, (cfsArrivals t w ready vr).2.1 = ready ++ d) := by
  intro w
  induction w with
  | nil =>
      intro ready vr hk hn
      refine ⟨hk, by simpa [cfsArrivals] using hn, ⟨[], by simp [cfsArrivals]⟩⟩
  | cons w1 ws ih =>
      intro ready vr hk hn
      unfold cfsArrivals
      by_cases ha : w1.arrival_time ≤ t
      · rw [if_pos ha]
        rw [List.nodup_append] at hn
        obtain ⟨hn1, hn2, hdisj⟩ := hn
        have hwid : w1.job_id ∉ ready.map Job.job_id := by
          intro hc
          exact hdisj hc (by simp)
        have habs : ¬ vr.any (fun q => q.1 == w1.job_id) = true := by
          rw [List.any_eq_true]
          rintro ⟨q, hq, hqid⟩
          apply hwid
          rw [← hk]
          have : q.1 = w1.job_id := beq_iff_eq.mp hqid
          exact this ▸ List.mem_map_of_mem _ hq
        rw [vrSet_absent habs]
        have hk' : (vr ++ [(w1.job_id, minVruntime vr)]).map Prod.fst
            = (ready ++ [w1]).map Job.job_id := by
          simp [hk]
        have hn' : ((ready ++ [w1]).map Job.job_id ++ ws.map Job.job_id).Nodup := by
          rw [List.nodup_append] at *
          simp only [List.map_append, List.map_cons, List.map_nil] at *
          constructor
          · rw [List.nodup_append]
            refine ⟨hn1, by simp, ?_⟩
            intro a ha1
            simp only [List.mem_singleton]
            intro hc
            exact hdisj ha1 (by simp [hc])
          · refine ⟨List.Nodup.of_cons hn2, ?_⟩
            intro a ha1
            rcases List.mem_append.mp ha1 with hcase | hcase
            · intro hc
              exact hdisj hcase (List.mem_cons_of_mem _ hc)
            · simp only [List.mem_singleton] at hcase
              subst hcase
              rw [List.nodup_cons] at hn2
              exact hn2.1
        obtain ⟨hka, hna, d, hda⟩ := ih (ready ++ [w1]) (vr ++ [(w1.job_id, minVruntime vr)]) hk' hn'
        exact ⟨hka, hna, ⟨w1 :: d, by simpa using hda⟩⟩
      · rw [if_neg ha]
        exact ⟨hk, by simpa using hn, ⟨[], by simp⟩⟩

theorem cfsTick_inv (t : Int) (w : List Job) (r : Job) (rs : List Job)
    (vr : List (Int × Int)) (c : List Job) (tr : List (Int × Int))
    (hk : vr.map Prod.fst = (r :: rs).map Job.job_id)
    (hn : ((r :: rs).map Job.job_id ++ w.map Job.job_id).Nodup) :
    ((cfsTick t w r rs vr c tr).2.2.2.1.map Prod.fst
        = (cfsTick t w r rs vr c tr).2.2.1.map Job.job_id) ∧
    ((cfsTick t w r rs vr c tr).2.2.1.map Job.job_id
        ++ (cfsTick t w r rs vr c tr).2.1.map Job.job_id).Nodup ∧
    ((pyMin1 (fun j => vrLookup vr j.job_id) r rs).remaining_time = 1 →
      (pyMin1 (fun j => vrLookup vr j.job_id) r rs).job_id
          ∉ (cfsTick t w r rs vr c tr).2.2.2.1.map Prod.fst) ∧
    ((pyMin1 (fun j => vrLookup vr j.job_id) r rs).remaining_time ≠ 1 →
      (pyMin1 (fun j => vrLookup vr j.job_id) r rs).job_id
          ∈ (cfsTick t w r rs vr c tr).2.2.2.1.map Prod.fst) := by
  unfold cfsTick
  dsimp only
  set job := pyMin1 (fun j => vrLookup vr j.job_id) r rs with hjob
  set job1 := if job.start_time = -1 then { job with start_time := t } else job with hjob1
  set job2 := { job1 with remaining_time := job1.remaining_time - 1 } with hjob2
  have hjobmem : job ∈ r :: rs := pyMin1_mem _ rs r
  have hj1id : job1.job_id = job.job_id := by
    rw [hjob1]; by_cases h : job.start_time = -1 <;> simp [h]
  have hj2id : job2.job_id = job.job_id := by rw [hjob2]; exact hj1id
  have hj1rem : job1.remaining_time = job.remaining_time := by
    rw [hjob1]; by_cases h : job.start_time = -1 <;> simp [h]
  have hj2rem : job2.remaining_time = job.remaining_time - 1 := by
    rw [hjob2]; simp [hj1rem]
  have hready1 : (replaceFirst (fun k => k == job) job2 (r :: rs)).map Job.job_id
      = (r :: rs).map Job.job_id :=
    replaceFirst_map_id (fun x hx => by rw [beq_iff_eq.mp hx, hj2id]) (r :: rs)
  have hpresent : vr.any (fun q => q.1 == job.job_id) = true := by
    rw [List.any_eq_true]
    have : job.job_id ∈ vr.map Prod.fst := by
      rw [hk]; exact List.mem_map_of_mem _ hjobmem
    rcases List.mem_map.mp this with ⟨q, hq, hqid⟩
    exact ⟨q, hq, by rw [beq_iff_eq, hqid]⟩
  have hvr1 : (vrSet vr job.job_id (vrLookup vr job.job_id + 1)).map Prod.fst
      = vr.map Prod.fst := vrSet_keys_present hpresent
  have hk1 : (vrSet vr job.job_id (vrLookup vr job.job_id + 1)).map Prod.fst
      = (replaceFirst (fun k => k == job) job2 (r :: rs)).map Job.job_id := by
    rw [hvr1, hk, hready1]
  have hn1 : ((replaceFirst (fun k => k == job) job2 (r :: rs)).map Job.job_id
      ++ w.map Job.job_id).Nodup := by rw [hready1]; exact hn
  obtain ⟨hka, hna, d, hd⟩ := cfsArrivals_inv (t + 1) w
    (replaceFirst (fun k => k == job) job2 (r :: rs))
    (vrSet vr job.job_id (vrLookup vr job.job_id + 1)) hk1 hn1
  by_cases hrem : job2.remaining_time = 0
  · rw [if_pos hrem]
    dsimp only
    set a := cfsArrivals (t + 1) w
      (replaceFirst (fun k => k == job) job2 (r :: rs))
      (vrSet vr job.job_id (vrLookup vr job.job_id + 1)) with ha
    set job3 := { job2 with completion_time := t + 1 } with hjob3
    have hj3id : job3.job_id = job.job_id := by rw [hjob3]; exact hj2id
    have hready2 : (replaceFirst (fun k => k == job2) job3 a.2.1).map Job.job_id
        = a.2.1.map Job.job_id :=
      replaceFirst_map_id (fun x hx => by
        rw [beq_iff_eq.mp hx]) a.2.1
    have hj2mem : job2 ∈ a.2.1 := by
      rw [hd]
      exact List.mem_append_left _ (replaceFirst_mem ⟨job, hjobmem, by simp⟩)
    have hj3mem : job3 ∈ replaceFirst (fun k => k == job2) job3 a.2.1 :=
      replaceFirst_mem ⟨job2, hj2mem, by simp⟩
    have hn2 : ((replaceFirst (fun k => k == job2) job3 a.2.1).map Job.job_id).Nodup := by
      rw [hready2]
      exact (List.nodup_append.mp hna).1
    have hcorr := eraseP_ids_correspond a.2.2
      (replaceFirst (fun k => k == job2) job3 a.2.1) job.job_id job3
      (by rw [hka, hready2]) hn2 hj3id hj3mem
    refine ⟨hcorr, ?_, ?_, ?_⟩
    · have hsub : (((replaceFirst (fun k => k == job2) job3 a.2.1).eraseP
            (fun k => k == job3)).map Job.job_id ++ a.1.map Job.job_id).Sublist
          ((replaceFirst (fun k => k == job2) job3 a.2.1).map Job.job_id
            ++ a.1.map Job.job_id) :=
        List.Sublist.append
          ((List.eraseP_sublist _).map Job.job_id) (List.Sublist.refl _)
      exact List.Nodup.sublist hsub (by rw [hready2]; exact hna)
    · intro _
      exact eraseP_key_gone a.2.2 job.job_id (by rw [hka]; exact (List.nodup_append.mp hna).1)
    · intro hcontra
      exact absurd (by omega : job.remaining_time = 1) hcontra
  · rw [if_neg hrem]
    dsimp only
    refine ⟨hka, hna, ?_, ?_⟩
    · intro hrem1
      exact absurd (by omega : job2.remaining_time = 0) hrem
    · intro _
      rw [hka, hd]
      simp only [List.map_append, List.mem_append]
      left
      rw [hready1]
      exact List.mem_map_of_mem _ hjobmem

/-- C8: the CFS vruntime table contains exactly the jobs currently in the
ready set.  (i) Initially both are empty; (ii) under that invariant (with
unique job ids) the value assigned to a newcomer, `minVruntime`, equals the
minimum vruntime held by the ready jobs, 0 when the ready set is empty;
(iii) the arrival scan preserves the invariant; (iv) an executed tick
preserves it, and the selected job's table entry is removed precisely when
its `remaining_time` reaches 0 (it was 1 before the tick) — kept otherwise. -/
theorem C8_vruntime_table_invariant :
    (([] : List (Int × Int)).map Prod.fst = ([] : List Job).map Job.job_id) ∧
    (∀ (vr : List (Int × Int)) (ready : List Job),
        vr.map Prod.fst = ready.map Job.job_id → (vr.map Prod.fst).Nodup →
        minVruntime vr
          = (pyMinInt (ready.map (fun j => vrLookup vr j.job_id))).getD 0) ∧
    (∀ (t : Int) (w ready : List Job) (vr : List (Int × Int)),
        vr.map Prod.fst = ready.map Job.job_id →
        (ready.map Job.job_id ++ w.map Job.job_id).Nodup →
        ((cfsArrivals t w ready vr).2.2.map Prod.fst
            = (cfsArrivals t w ready vr).2.1.map Job.job_id) ∧
        ((cfsArrivals t w ready vr).2.1.map Job.job_id
            ++ (cfsArrivals t w ready vr).1.map Job.job_id).Nodup) ∧
    (∀ (t : Int) (w : List Job) (r : Job) (rs : List Job)
        (vr : List (Int × Int)) (c : List Job) (tr : List (Int × Int)),
        vr.map Prod.fst = (r :: rs).map Job.job_id →
        ((r :: rs).map Job.job_id ++ w.map Job.job_id).Nodup →
        ((cfsTick t w r rs vr c tr).2.2.2.1.map Prod.fst
            = (cfsTick t w r rs vr c tr).2.2.1.map Job.job_id) ∧
        ((cfsTick t w r rs vr c tr).2.2.1.map Job.job_id
            ++ (cfsTick t w r rs vr c tr).2.1.map Job.job_id).Nodup ∧
        ((pyMin1 (fun j => vrLookup vr j.job_id) r rs).remaining_time = 1 →
          (pyMin1 (fun j => vrLookup vr j.job_id) r rs).job_id
              ∉ (cfsTick t w r rs vr c tr).2.2.2.1.map Prod.fst) ∧
        ((pyMin1 (fun j => vrLookup vr j.job_id) r rs).remaining_time ≠ 1 →
          (pyMin1 (fun j => vrLookup vr j.job_id) r rs).job_id
              ∈ (cfsTick t w r rs vr c tr).2.2.2.1.map Prod.fst)) :=
  ⟨rfl, minVruntime_refines,
   fun t w ready vr hk hn =>
     ⟨(cfsArrivals_inv t w ready vr hk hn).1, (cfsArrivals_inv t w ready vr hk hn).2.1⟩,
   cfsTick_inv⟩

/-- C8 witness: the invariant machinery evaluated at a concrete table
`[(1,4),(2,7)]` matching ready jobs with ids 1 and 2, with a newcomer of id
3 and one executed tick of the (non-completing) minimal job. -/
theorem C8_vruntime_table_invariant_witness :
    (([( 1, 4), (2, 7)] : List (Int × Int)).map Prod.fst
        = ([⟨1, 0, 5, 3, 0, 0, 0, -1, false, -1, 5, []⟩,
            ⟨2, 0, 5, 5, 0, 0, -1, -1, false, -1, 5, []⟩] : List Job).map Job.job_id) ∧
    (([( 1, 4), (2, 7)] : List (Int × Int)).map Prod.fst).Nodup ∧
    (minVruntime [(1, 4), (2, 7)]
      = (pyMinInt (([⟨1, 0, 5, 3, 0, 0, 0, -1, false, -1, 5, []⟩,
            ⟨2, 0, 5, 5, 0, 0, -1, -1, false, -1, 5, []⟩] : List Job).map
              (fun j => vrLookup [(1, 4), (2, 7)] j.job_id))).getD 0) ∧
    ((([⟨1, 0, 5, 3, 0, 0, 0, -1, false, -1, 5, []⟩,
        ⟨2, 0, 5, 5, 0, 0, -1, -1, false, -1, 5, []⟩] : List Job).map Job.job_id
        ++ ([⟨3, 0, 4, 4, 0, 0, -1, -1, false, -1, 5, []⟩] : List Job).map Job.job_id).Nodup) ∧
    ((cfsArrivals 0 [⟨3, 0, 4, 4, 0, 0, -1, -1, false, -1, 5, []⟩]
        [⟨1, 0, 5, 3, 0, 0, 0, -1, false, -1, 5, []⟩,
         ⟨2, 0, 5, 5, 0, 0, -1, -1, false, -1, 5, []⟩] [(1, 4), (2, 7)]).2.2.map Prod.fst
      = (cfsArrivals 0 [⟨3, 0, 4, 4, 0, 0, -1, -1, false, -1, 5, []⟩]
        [⟨1, 0, 5, 3, 0, 0, 0, -1, false, -1, 5, []⟩,
         ⟨2, 0, 5, 5, 0, 0, -1, -1, false, -1, 5, []⟩] [(1, 4), (2, 7)]).2.1.map Job.job_id) ∧
    ((cfsTick 0 [] ⟨1, 0, 5, 3, 0, 0, 0, -1, false, -1, 5, []⟩
        [⟨2, 0, 5, 5, 0, 0, -1, -1, false, -1, 5, []⟩] [(1, 4), (2, 7)] [] []).2.2.2.1.map Prod.fst
      = (cfsTick 0 [] ⟨1, 0, 5, 3, 0, 0, 0, -1, false, -1, 5, []⟩
        [⟨2, 0, 5, 5, 0, 0, -1, -1, false, -1, 5, []⟩] [(1, 4), (2, 7)] [] []).2.2.1.map Job.job_id) ∧
    ((pyMin1 (fun j : Job => vrLookup [(1, 4), (2, 7)] j.job_id)
        (⟨1, 0, 5, 3, 0, 0, 0, -1, false, -1, 5, []⟩ : Job)
        [⟨2, 0, 5, 5, 0, 0, -1, -1, false, -1, 5, []⟩]).remaining_time ≠ 1 →
      (pyMin1 (fun j : Job => vrLookup [(1, 4), (2, 7)] j.job_id)
        (⟨1, 0, 5, 3, 0, 0, 0, -1, false, -1, 5, []⟩ : Job)
        [⟨2, 0, 5, 5, 0, 0, -1, -1, false, -1, 5, []⟩]).job_id
        ∈ (cfsTick 0 [] ⟨1, 0, 5, 3, 0, 0, 0, -1, false, -1, 5, []⟩
            [⟨2, 0, 5, 5, 0, 0, -1, -1, false, -1, 5, []⟩] [(1, 4), (2, 7)] [] []).2.2.2.1.map Prod.fst) :=
  ⟨by decide, by decide,
   C8_vruntime_table_invariant.2.1 [(1, 4), (2, 7)]
     [⟨1, 0, 5, 3, 0, 0, 0, -1, false, -1, 5, []⟩,
      ⟨2, 0, 5, 5, 0, 0, -1, -1, false, -1, 5, []⟩] (by decide) (by decide),
   by decide,
   (C8_vruntime_table_invariant.2.2.1 0 [⟨3, 0, 4, 4, 0, 0, -1, -1, false, -1, 5, []⟩]
     [⟨1, 0, 5, 3, 0, 0, 0, -1, false, -1, 5, []⟩,
      ⟨2, 0, 5, 5, 0, 0, -1, -1, false, -1, 5, []⟩] [(1, 4), (2, 7)]
     (by decide) (by decide)).1,
   (C8_vruntime_table_invariant.2.2.2 0 [] ⟨1, 0, 5, 3, 0, 0, 0, -1, false, -1, 5, []⟩
     [⟨2, 0, 5, 5, 0, 0, -1, -1, false, -1, 5, []⟩] [(1, 4), (2, 7)] [] []
     (by decide) (by decide)).1,
   (C8_vruntime_table_invariant.2.2.2 0 [] ⟨1, 0, 5, 3, 0, 0, 0, -1, false, -1, 5, []⟩
     [⟨2, 0, 5, 5, 0, 0, -1, -1, false, -1, 5, []⟩] [(1, 4), (2, 7)] [] []
     (by decide) (by decide)).2.2.2⟩

/-! ## Boost machinery (C5) -/

theorem mem_getD :
    ∀ (qs : List (List Job)) (n : Nat) (j : Job),
      j ∈ qs.getD n [] → ∃ q ∈ qs, j ∈ q := by
  intro qs
  induction qs with
  | nil => intro n j hj; simp [List.getD] at hj
  | cons q rest ih =>
      intro n j hj
      cases n with
      | zero => exact ⟨q, by simp, by simpa [List.getD] using hj⟩
      | succ m =>
          obtain ⟨q', hq', hjq'⟩ := ih m j (by simpa [List.getD] using hj)
          exact ⟨q', List.mem_cons_of_mem _ hq', hjq'⟩

theorem mem_qAppend {qs : List (List Job)} {i : Int} {x : Job} {q' : List Job} {j : Job}
    (hq : q' ∈ qAppend qs i x) (hj : j ∈ q') :
    (∃ q ∈ qs, j ∈ q) ∨ j = x := by
  unfold qAppend at hq
  rcases List.mem_or_eq_of_mem_set hq with hmem | heq
  · exact Or.inl ⟨q', hmem, hj⟩
  · subst heq
    rcases List.mem_append.mp hj with hmem | hmem
    · exact Or.inl (mem_getD qs i.toNat j hmem)
    · exact Or.inr (by simpa using hmem)

theorem mem_ioReturn_fold :
    ∀ (l : List Job) (qs : List (List Job)) (q' : List Job) (j : Job),
      q' ∈ l.foldl (fun qs j => qAppend qs j.priority { j with waiting_for_io := false }) qs →
      j ∈ q' →
      (∃ q ∈ qs, j ∈ q) ∨ ∃ x ∈ l, j = { x with waiting_for_io := false } := by
  intro l
  induction l with
  | nil => intro qs q' j hq hj; exact Or.inl ⟨q', hq, hj⟩
  | cons x xs ih =>
      intro qs q' j hq hj
      rw [List.foldl_cons] at hq
      rcases ih _ q' j hq hj with hcase | ⟨y, hy, hjy⟩
      · rcases hcase with ⟨q, hqmem, hjq⟩
        rcases mem_qAppend hqmem hjq with hcase2 | heq
        · exact Or.inl hcase2
        · exact Or.inr ⟨x, by simp, heq⟩
      · exact Or.inr ⟨y, List.mem_cons_of_mem _ hy, hjy⟩

theorem mem_mlfqArrivals :
    ∀ (t : Int) (w : List Job) (qs : List (List Job)) (q' : List Job) (j : Job),
      q' ∈ (mlfqArrivals t w qs).2 → j ∈ q' →
      (∃ q ∈ qs, j ∈ q) ∨ ∃ x ∈ w, j = { x with priority := 0, time_in_queue := 0 } := by
  intro t w
  induction w with
  | nil => intro qs q' j hq hj; exact Or.inl ⟨q', by simpa [mlfqArrivals] using hq, hj⟩
  | cons x xs ih =>
      intro qs q' j hq hj
      unfold mlfqArrivals at hq
      by_cases ha : x.arrival_time ≤ t
      · rw [if_pos ha] at hq
        rcases ih _ q' j hq hj with hcase | ⟨y, hy, hjy⟩
        · rcases hcase with ⟨q, hqmem, hjq⟩
          rcases mem_qAppend hqmem hjq with hcase2 | heq
          · exact Or.inl hcase2
          · exact Or.inr ⟨x, by simp, heq⟩
        · exact Or.inr ⟨y, List.mem_cons_of_mem _ hy, hjy⟩
      · rw [if_neg ha] at hq
        exact Or.inl ⟨q', hq, hj⟩

theorem mem_selectScan :
    ∀ (qs : List (List Job)) (jj : Job) (p : Nat) (qs' : List (List Job)),
      selectScan qs = some (jj, p, qs') →
      (∃ q ∈ qs, jj ∈ q) ∧
      (∀ q' ∈ qs', ∀ j ∈ q', ∃ q ∈ qs, j ∈ q) := by
  intro qs
  induction qs with
  | nil => intro jj p qs' h; exact Option.noConfusion h
  | cons q rest ih =>
      intro jj p qs' h
      cases q with
      | nil =>
          unfold selectScan at h
          cases hs : selectScan rest with
          | none => rw [hs] at h; exact Option.noConfusion h
          | some x =>
              rw [hs] at h
              rcases x with ⟨jj', p', rest'⟩
              simp only [Option.map_some', Option.some.injEq, Prod.mk.injEq] at h
              obtain ⟨h1, -, h3⟩ := h
              rw [h1] at hs
              subst h3
              obtain ⟨⟨q0, hq0, hjj⟩, hrest⟩ := ih jj p' rest' hs
              refine ⟨⟨q0, List.mem_cons_of_mem _ hq0, hjj⟩, ?_⟩
              intro q' hq' j hj
              rcases List.mem_cons.mp hq' with heq | hq''
              · rw [heq] at hj
                cases hj
              · obtain ⟨q2, hq2, hjq2⟩ := hrest q' hq'' j hj
                exact ⟨q2, List.mem_cons_of_mem _ hq2, hjq2⟩
      | cons a q0 =>
          unfold selectScan at h
          simp only [Option.some.injEq, Prod.mk.injEq] at h
          obtain ⟨h1, -, h3⟩ := h
          subst h3
          rw [← h1]
          refine ⟨⟨a :: q0, by simp, by simp⟩, ?_⟩
          intro q' hq' j hj
          rcases List.mem_cons.mp hq' with heq | hq''
          · rw [heq] at hj
            exact ⟨a :: q0, by simp, List.mem_cons_of_mem _ hj⟩
          · exact ⟨q', List.mem_cons_of_mem _ hq'', hj⟩

theorem Jz_boost (cfg : MLFQConfig) (s : MLFQState) (jid : Int)
    (hio : ∀ j ∈ s.io_jobs, j.job_id = jid → j.priority = 0 ∧ j.time_in_queue = 0) :
    JidZero (phaseBoost cfg s) jid ∨ phaseBoost cfg s = s := by
  unfold phaseBoost
  by_cases hb : boostCond cfg.boost_interval s.time_since_boost
  · rw [if_pos hb]
    left
    refine ⟨?_, ?_, ?_⟩
    · intro q hq j hj _
      unfold boost_all_jobs at hq
      dsimp only at hq
      rcases List.mem_or_eq_of_mem_set hq with hmem | heq
      · rw [List.eq_of_mem_replicate hmem] at hj
        cases hj
      · subst heq
        rcases List.mem_map.mp hj with ⟨x, _, hx⟩
        rw [← hx]
        exact ⟨rfl, rfl⟩
    · intro j hj _
      unfold boost_all_jobs at hj
      dsimp only at hj
      rcases hcur : s.current with _ | j0
      · rw [hcur] at hj; cases hj
      · rw [hcur] at hj
        simp only [Option.map_some', Option.some.injEq] at hj
        rw [← hj]
        exact ⟨rfl, rfl⟩
    · intro j hj hjid
      exact hio j hj hjid
  · rw [if_neg hb]
    right
    rfl

theorem Jz_boost_pres (cfg : MLFQConfig) (s : MLFQState) (jid : Int)
    (hz : JidZero s jid) : JidZero (phaseBoost cfg s) jid := by
  rcases Jz_boost cfg s jid hz.2.2 with h | h
  · exact h
  · rw [h]; exact hz

theorem Jz_ioReturn (s : MLFQState) (jid : Int) (hz : JidZero s jid) :
    JidZero (phaseIOReturn s) jid := by
  obtain ⟨hq, hc, hio⟩ := hz
  unfold phaseIOReturn ioReturnStep
  refine ⟨?_, ?_, ?_⟩
  · intro q hqmem j hj hjid
    dsimp only at hqmem
    rcases mem_ioReturn_fold _ _ q j hqmem hj with ⟨q0, hq0, hjq0⟩ | ⟨x, hx, hjx⟩
    · exact hq q0 hq0 j hjq0 hjid
    · have hxmem : x ∈ s.io_jobs := (List.mem_filter.mp hx).1
      have hxid : x.job_id = jid := by
        rw [hjx] at hjid
        exact hjid
      obtain ⟨hp, ht⟩ := hio x hxmem hxid
      rw [hjx]
      exact ⟨hp, ht⟩
  · intro j hj hjid
    exact hc j hj hjid
  · intro j hj hjid
    exact hio j (List.mem_filter.mp hj).1 hjid

theorem Jz_arrivals (s : MLFQState) (jid : Int) (hz : JidZero s jid) :
    JidZero (phaseArrivals s) jid := by
  obtain ⟨hq, hc, hio⟩ := hz
  unfold phaseArrivals
  refine ⟨?_, hc, hio⟩
  intro q hqmem j hj hjid
  dsimp only at hqmem
  rcases mem_mlfqArrivals s.current_time s.waiting s.queues q j hqmem hj with
    ⟨q0, hq0, hjq0⟩ | ⟨x, _, hjx⟩
  · exact hq q0 hq0 j hjq0 hjid
  · rw [hjx]
    exact ⟨rfl, rfl⟩

theorem Jz_retire (cfg : MLFQConfig) (s : MLFQState) (jid : Int)
    (hallot : 0 < cfg.time_allotments.getD 0 0)
    (hz : JidZero s jid) : JidZero (phaseRetire cfg s) jid := by
  obtain ⟨hq, hc, hio⟩ := hz
  unfold phaseRetire
  cases hcur : s.current with
  | none => exact ⟨hq, hc, hio⟩
  | some j =>
      dsimp only
      by_cases hcond : s.quantum_remaining ≤ 0 ∨ j.remaining_time ≤ 0 ∨ j.waiting_for_io = true
      · rw [if_pos hcond]
        unfold retireStep
        by_cases h1 : j.remaining_time ≤ 0
        · rw [if_pos h1]
          exact ⟨hq, (by intro k hk; cases hk), hio⟩
        · rw [if_neg h1]
          by_cases h2 : j.waiting_for_io = true
          · rw [if_pos h2]
            refine ⟨hq, (by intro k hk; cases hk), ?_⟩
            intro k hk hkid
            rcases List.mem_append.mp hk with hk' | hk'
            · exact hio k hk' hkid
            · rw [List.mem_singleton.mp hk']
              exact hc j hcur (by rw [← List.mem_singleton.mp hk']; exact hkid)
          · rw [if_neg h2]
            dsimp only
            refine ⟨?_, (by intro k hk; cases hk), hio⟩
            intro q hqmem k hk hkid
            by_cases hdem : cfg.time_allotments.getD j.priority.toNat 0 ≤ j.time_in_queue
            · rw [if_pos hdem] at hqmem
              rcases mem_qAppend hqmem hk with ⟨q0, hq0, hkq0⟩ | heq
              · exact hq q0 hq0 k hkq0 hkid
              · -- the demoted job cannot be `jid`: `jid`'s time_in_queue is 0
                -- and the level-0 allotment is positive
                have hkid' : j.job_id = jid := by rw [heq] at hkid; exact hkid
                obtain ⟨hp0, ht0⟩ := hc j hcur hkid'
                rw [hp0, ht0] at hdem
                simp only [Int.toNat_zero] at hdem
                omega
            · rw [if_neg hdem] at hqmem
              rcases mem_qAppend hqmem hk with ⟨q0, hq0, hkq0⟩ | heq
              · exact hq q0 hq0 k hkq0 hkid
              · rw [heq]
                rw [heq] at hkid
                exact hc j hcur hkid
      · rw [if_neg hcond]
        exact ⟨hq, hc, hio⟩

theorem Jz_select (cfg : MLFQConfig) (s : MLFQState) (jid : Int)
    (hz : JidZero s jid) : JidZero (phaseSelect cfg s) jid := by
  obtain ⟨hq, hc, hio⟩ := hz
  unfold phaseSelect
  cases hcur : s.current with
  | some j => exact ⟨hq, fun k hk => hc k hk, hio⟩
  | none =>
      dsimp only
      cases hs : selectScan s.queues with
      | none => exact ⟨hq, fun k hk => hc k hk, hio⟩
      | some x =>
          rcases x with ⟨jj, p, qs'⟩
          dsimp only
          obtain ⟨⟨q0, hq0, hjj⟩, hrest⟩ := mem_selectScan s.queues jj p qs' hs
          refine ⟨?_, ?_, hio⟩
          · intro q hqmem k hk hkid
            obtain ⟨q2, hq2, hkq2⟩ := hrest q hqmem k hk
            exact hq q2 hq2 k hkq2 hkid
          · intro k hk hkid
            simp only [Option.some.injEq] at hk
            have hkid' : jj.job_id = jid := by
              by_cases hst : jj.start_time = -1
              · rw [if_pos hst] at hk
                rw [← hk] at hkid
                exact hkid
              · rw [if_neg hst] at hk
                rw [← hk] at hkid
                exact hkid
            obtain ⟨hp0, ht0⟩ := hq q0 hq0 jj hjj hkid'
            by_cases hst : jj.start_time = -1
            · rw [if_pos hst] at hk
              rw [← hk]
              exact ⟨hp0, ht0⟩
            · rw [if_neg hst] at hk
              rw [← hk]
              exact ⟨hp0, ht0⟩

theorem phaseExec_spec (s : MLFQState) (j : Job) (hs : s.current = some j) :
    ((phaseExec s).1.job_id = j.job_id ∧ (phaseExec s).1.priority = j.priority) ∧
    (∃ k : Job, (phaseExec s).2.current = some k ∧ k.job_id = j.job_id) ∧
    (phaseExec s).2.queues = s.queues ∧ (phaseExec s).2.io_jobs = s.io_jobs := by
  unfold phaseExec
  rw [hs]
  dsimp only
  cases hn : needs_io j (j.burst_time - j.remaining_time) with
  | mk fst snd =>
      have hsndid : snd.job_id = j.job_id := by
        unfold needs_io at hn
        cases hops : j.io_operations with
        | nil =>
            rw [hops] at hn
            injection hn with h1 h2
            rw [← h2]
        | cons o rest =>
            rw [hops] at hn
            dsimp only at hn
            by_cases he : j.burst_time - j.remaining_time = o
            · rw [if_pos he] at hn
              injection hn with h1 h2
              rw [← h2]
            · rw [if_neg he] at hn
              injection hn with h1 h2
              rw [← h2]
      cases fst
      · exact ⟨⟨rfl, rfl⟩, ⟨_, rfl, hsndid⟩, rfl, rfl⟩
      · exact ⟨⟨rfl, rfl⟩, ⟨_, rfl, hsndid⟩, rfl, rfl⟩

theorem Jz_exec (s : MLFQState) (jid : Int)
    (hcur : ∀ j : Job, s.current = some j → j.job_id ≠ jid)
    (hz : JidZero s jid) : JidZero (phaseExec s).2 jid := by
  obtain ⟨hq, hc, hio⟩ := hz
  cases hs : s.current with
  | none =>
      have hid : (phaseExec s).2 = s := by unfold phaseExec; rw [hs]
      rw [hid]
      exact ⟨hq, hc, hio⟩
  | some j =>
      obtain ⟨-, ⟨k, hk, hkid⟩, hques, hios⟩ := phaseExec_spec s j hs
      refine ⟨?_, ?_, ?_⟩
      · intro q hqm jq hjq hid
        rw [hques] at hqm
        exact hq q hqm jq hjq hid
      · intro m hm hmid
        rw [hk] at hm
        injection hm with hm
        rw [← hm] at hmid
        exact absurd (hkid.symm.trans hmid) (hcur j hs)
      · intro m hm hmid
        rw [hios] at hm
        exact hio m hm hmid

theorem Jz_tick (s : MLFQState) (jid : Int) (hz : JidZero s jid) :
    JidZero (phaseTick s) jid := hz

theorem Jz_boost_fires (cfg : MLFQConfig) (s : MLFQState) (jid : Int)
    (hcond : boostCond cfg.boost_interval s.time_since_boost)
    (hio : ∀ j ∈ s.io_jobs, j.job_id = jid → j.priority = 0 ∧ j.time_in_queue = 0) :
    JidZero (phaseBoost cfg s) jid := by
  unfold phaseBoost
  rw [if_pos hcond]
  refine ⟨?_, ?_, ?_⟩
  · intro q hq j hj _
    unfold boost_all_jobs at hq
    dsimp only at hq
    rcases List.mem_or_eq_of_mem_set hq with hmem | heq
    · rw [List.eq_of_mem_replicate hmem] at hj
      cases hj
    · subst heq
      rcases List.mem_map.mp hj with ⟨x, -, hx⟩
      rw [← hx]
      exact ⟨rfl, rfl⟩
  · intro j hj _
    unfold boost_all_jobs at hj
    dsimp only at hj
    rcases hcur : s.current with _ | j0
    · rw [hcur] at hj; cases hj
    · rw [hcur] at hj
      simp only [Option.map_some', Option.some.injEq] at hj
      rw [← hj]
      exact ⟨rfl, rfl⟩
  · intro j hj hjid
    exact hio j hj hjid

theorem mlfqLoop_first_entry_zero (cfg : MLFQConfig) (jid : Int) (hjid : jid ≠ -1)
    (hallot : 0 < cfg.time_allotments.getD 0 0) :
    ∀ (fuel : Nat) (s : MLFQState) (out : List Job × List TLEntry × List (List Job) × Int),
      JidZero (phaseBoost cfg s) jid →
      mlfqLoop cfg fuel s = some out →
      ∀ e : TLEntry, out.2.1.find? (fun e => e.job_id == jid) = some e →
      e.priority = 0 := by
  intro fuel
  induction fuel with
  | zero => intro s out _ h; exact Option.noConfusion h
  | succ n ih =>
      intro s out hz hloop e hfind
      unfold mlfqLoop at hloop
      by_cases hd : mlfqDone s
      · rw [if_pos hd] at hloop
        simp only [Option.some.injEq] at hloop
        rw [← hloop] at hfind
        exact Option.noConfusion hfind
      · rw [if_neg hd] at hloop
        cases hl : mlfqLoop cfg n (mlfqStep cfg s).2 with
        | none => rw [hl] at hloop; exact Option.noConfusion hloop
        | some y =>
            rw [hl] at hloop
            simp only [Option.map_some', Option.some.injEq] at hloop
            rw [← hloop] at hfind
            have hz5 : JidZero (phaseSelect cfg (phaseRetire cfg (phaseArrivals
                (phaseIOReturn (phaseBoost cfg s))))) jid :=
              Jz_select cfg _ jid (Jz_retire cfg _ jid hallot
                (Jz_arrivals _ jid (Jz_ioReturn _ jid hz)))
            have hentry : (mlfqStep cfg s).1 = (phaseExec (phaseSelect cfg (phaseRetire cfg
                (phaseArrivals (phaseIOReturn (phaseBoost cfg s)))))).1 := rfl
            by_cases hej : ((fun e : TLEntry => e.job_id == jid) (mlfqStep cfg s).1) = true
            · rw [@find?_cons_true _ (fun e : TLEntry => e.job_id == jid)
                  (mlfqStep cfg s).1 y.2.1 hej] at hfind
              injection hfind with hfe
              rw [← hfe]
              cases hc5 : (phaseSelect cfg (phaseRetire cfg (phaseArrivals
                  (phaseIOReturn (phaseBoost cfg s))))).current with
              | none =>
                  have hidle : (phaseExec (phaseSelect cfg (phaseRetire cfg (phaseArrivals
                      (phaseIOReturn (phaseBoost cfg s)))))).1
                      = ⟨(phaseSelect cfg (phaseRetire cfg (phaseArrivals
                          (phaseIOReturn (phaseBoost cfg s))))).current_time,
                         -1, -1, TLStatus.idle⟩ := by
                    unfold phaseExec
                    rw [hc5]
                  rw [hentry, hidle] at hej
                  simp only [beq_iff_eq] at hej
                  exact absurd hej.symm hjid
              | some j =>
                  obtain ⟨⟨hid, hpr⟩, -, -, -⟩ := phaseExec_spec _ j hc5
                  rw [hentry] at hej
                  simp only [beq_iff_eq] at hej
                  have hjidj : j.job_id = jid := by rw [← hid]; exact hej
                  obtain ⟨hp0, -⟩ := hz5.2.1 j hc5 hjidj
                  rw [hentry, hpr, hp0]
            · rw [@find?_cons_false _ (fun e : TLEntry => e.job_id == jid)
                  (mlfqStep cfg s).1 y.2.1 (Bool.eq_false_iff.mpr hej)] at hfind
              refine ih (mlfqStep cfg s).2 y ?_ hl e hfind
              have hne : ∀ j : Job, (phaseSelect cfg (phaseRetire cfg (phaseArrivals
                  (phaseIOReturn (phaseBoost cfg s))))).current = some j →
                  j.job_id ≠ jid := by
                intro j hj hcontra
                obtain ⟨⟨hid, -⟩, -, -, -⟩ := phaseExec_spec _ j hj
                apply hej
                rw [hentry]
                simp only [beq_iff_eq]
                rw [hid]
                exact hcontra
              have hzex : JidZero (phaseExec (phaseSelect cfg (phaseRetire cfg (phaseArrivals
                  (phaseIOReturn (phaseBoost cfg s)))))).2 jid :=
                Jz_exec _ jid hne hz5
              exact Jz_boost_pres cfg _ jid (Jz_tick _ jid hzex)

/-- C5 amended: the boost moves queued jobs and the currently running job to
level 0 with `time_in_queue` reset and the queued population preserved,
while jobs in I/O wait are untouched; and for every job NOT in I/O wait
when a boost fires, the first subsequent timeline entry recorded for that
job (its next dispatch tick) carries priority 0.  Concretely, with
`boost_interval = 10` and a single burst-20 job, the job runs at priority 2
at tick 9 and at priority 0 at tick 10.  Jobs sitting in I/O wait at the
boost are exempt (see the counterexample). -/
theorem C5_boost_to_level0 :
    (∀ (qs : List (List Job)) (cur : Option Job),
        (∀ q ∈ (boost_all_jobs qs cur).1, ∀ j ∈ q,
            j.priority = 0 ∧ j.time_in_queue = 0) ∧
        ((boost_all_jobs qs cur).2
            = cur.map (fun j => { j with priority := 0, time_in_queue := 0 })) ∧
        ((boost_all_jobs qs cur).1.flatten.map Job.job_id
            = qs.flatten.map Job.job_id)) ∧
    (∀ (cfg : MLFQConfig) (s : MLFQState), (phaseBoost cfg s).io_jobs = s.io_jobs) ∧
    (∀ (cfg : MLFQConfig) (jid : Int) (fuel : Nat) (s : MLFQState)
        (out : List Job × List TLEntry × List (List Job) × Int),
        jid ≠ -1 → 0 < cfg.time_allotments.getD 0 0 →
        boostCond cfg.boost_interval s.time_since_boost →
        (∀ j ∈ s.io_jobs, j.job_id ≠ jid) →
        mlfqLoop cfg fuel s = some out →
        ∀ e : TLEntry, out.2.1.find? (fun e => e.job_id == jid) = some e →
        e.priority = 0) ∧
    ((mlfqSchedule (mkMLFQScheduler 3 none none (some 10)).1
        (mkMLFQScheduler 3 none none (some 10)).2 100 [mkJobD 1 0 20 20]).map
        (fun x => (x.1.2.2.getD 9 ⟨0, 0, 0, TLStatus.idle⟩,
                   x.1.2.2.getD 10 ⟨0, 0, 0, TLStatus.idle⟩))
      = some (⟨9, 1, 2, TLStatus.running⟩, ⟨10, 1, 0, TLStatus.running⟩)) := by
  refine ⟨?_, ?_, ?_, by decide⟩
  · intro qs cur
    refine ⟨?_, rfl, ?_⟩
    · intro q hq j hj
      unfold boost_all_jobs at hq
      dsimp only at hq
      rcases List.mem_or_eq_of_mem_set hq with hmem | heq
      · rw [List.eq_of_mem_replicate hmem] at hj
        cases hj
      · subst heq
        rcases List.mem_map.mp hj with ⟨x, -, hx⟩
        rw [← hx]
        exact ⟨rfl, rfl⟩
    · unfold boost_all_jobs
      dsimp only
      cases hqs : qs with
      | nil => rfl
      | cons q rest =>
          simp only [List.length_cons, List.replicate_succ, List.set_cons_zero]
          rw [List.flatten_cons]
          have hrep : ∀ m : Nat, (List.replicate m ([] : List Job)).flatten = [] := by
            intro m
            induction m with
            | zero => rfl
            | succ k ihk => rw [List.replicate_succ, List.flatten_cons, ihk]; rfl
          rw [hrep]
          simp only [List.append_nil, List.map_map]
          apply List.map_congr_left
          intro j _
          rfl
  · intro cfg s
    unfold phaseBoost
    split <;> rfl
  · intro cfg jid fuel s out hjid hallot hcond hio hloop e hfind
    exact mlfqLoop_first_entry_zero cfg jid hjid hallot fuel s out
      (Jz_boost_fires cfg s jid hcond (fun j hj hid => absurd hid (hio j hj)))
      hloop e hfind

/-- C5 as stated is false: under MLFQ with `boost_interval = 10`, a job
with burst 12 and an I/O offset at CPU time 8 yields at tick 8 while at
priority 2, so its priority is greater than 0 at tick 9; it sits in I/O
wait across the tick-10 boost (not boosted), and its first dispatch at or
after tick 10 — the timeline entry at tick 13 — records priority 2, not 0. -/
theorem C5_counterexample :
    ((mlfqSchedule (mkMLFQScheduler 3 none none (some 10)).1
        (mkMLFQScheduler 3 none none (some 10)).2 100 [mkJobWithIo 1 0 12 12 [8] 5]).map
        (fun x => (x.1.2.2.getD 8 ⟨0, 0, 0, TLStatus.idle⟩,
                   (x.1.2.2.filter (fun e => decide (10 ≤ e.time ∧ e.job_id = 1))).head?))
      = some (⟨8, 1, 2, TLStatus.ioyield⟩, some ⟨13, 1, 2, TLStatus.running⟩)) ∧
    (2 : Int) ≠ 0 :=
  ⟨by decide, by decide⟩

/-- C5 witness: the temporal part applied at a concrete boost-firing state
(one queued job at priority 2 with `time_in_queue = 3`, counter at 10): its
first timeline entry after the boost is at priority 0. -/
theorem C5_boost_to_level0_witness :
    ((1 : Int) ≠ -1) ∧
    (0 < (mkMLFQScheduler 3 none none (some 10)).1.time_allotments.getD 0 0) ∧
    (boostCond (mkMLFQScheduler 3 none none (some 10)).1.boost_interval
      (⟨[], [[⟨1, 0, 3, 1, 2, 3, 0, -1, false, -1, 5, []⟩], [], []], [],
        none, 0, 0, [], 0, 10⟩ : MLFQState).time_since_boost) ∧
    (∀ j ∈ (⟨[], [[⟨1, 0, 3, 1, 2, 3, 0, -1, false, -1, 5, []⟩], [], []], [],
        none, 0, 0, [], 0, 10⟩ : MLFQState).io_jobs, j.job_id ≠ 1) ∧
    (mlfqLoop (mkMLFQScheduler 3 none none (some 10)).1 5
        ⟨[], [[⟨1, 0, 3, 1, 2, 3, 0, -1, false, -1, 5, []⟩], [], []], [],
          none, 0, 0, [], 0, 10⟩
      = some ([⟨1, 0, 3, 0, 0, 1, 0, 1, false, -1, 5, []⟩],
              [⟨0, 1, 0, TLStatus.running⟩, ⟨1, -1, -1, TLStatus.idle⟩],
              [[], [], []], 2)) ∧
    (([⟨0, 1, 0, TLStatus.running⟩, ⟨1, -1, -1, TLStatus.idle⟩] : List TLEntry).find?
        (fun e => e.job_id == 1) = some ⟨0, 1, 0, TLStatus.running⟩) ∧
    ((⟨0, 1, 0, TLStatus.running⟩ : TLEntry).priority = 0) :=
  ⟨by decide, by decide, by decide, by decide, by decide, by decide,
   C5_boost_to_level0.2.2.1 (mkMLFQScheduler 3 none none (some 10)).1 1 5
     ⟨[], [[⟨1, 0, 3, 1, 2, 3, 0, -1, false, -1, 5, []⟩], [], []], [],
       none, 0, 0, [], 0, 10⟩
     ([⟨1, 0, 3, 0, 0, 1, 0, 1, false, -1, 5, []⟩],
      [⟨0, 1, 0, TLStatus.running⟩, ⟨1, -1, -1, TLStatus.idle⟩],
      [[], [], []], 2)
     (by decide) (by decide) (by decide) (by decide) (by decide)
     ⟨0, 1, 0, TLStatus.running⟩ (by decide)⟩

/-! ## C1: completed-job invariants, engine by engine -/

theorem startInv_mono {j : Job} {t t' : Int} (h : t ≤ t') :
    startInv j t → startInv j t' := by
  rintro (h1 | ⟨h1, h2⟩)
  · exact Or.inl h1
  · exact Or.inr ⟨h1, le_trans h2 h⟩

theorem readyInv_mono {j : Job} {t t' : Int} (h : t ≤ t') :
    readyInv j t → readyInv j t' := by
  rintro ⟨h1, h2⟩
  exact ⟨le_trans h1 h, startInv_mono h h2⟩

theorem queuedInv_mono {j : Job} {t t' : Int} (h : t ≤ t') :
    queuedInv j t → queuedInv j t' := by
  rintro ⟨h1, h2⟩
  exact ⟨h1, readyInv_mono h h2⟩

theorem runningInv_mono {j : Job} {t t' : Int} (h : t ≤ t') :
    runningInv j t → runningInv j t' := by
  rintro ⟨h1, h2, h3⟩
  exact ⟨h1, h2, le_trans h3 h⟩

/-- FIFO loop: with nonnegative bursts every emitted job satisfies the
ordering chain. -/
theorem fifoGo_ordered :
    ∀ (rest : List Job) (t : Int) (acc : List Job),
      (∀ j ∈ acc, jobOrdered j) → (∀ j ∈ rest, 0 ≤ j.burst_time) →
      ∀ j ∈ fifoGo t acc rest, jobOrdered j := by
  intro rest
  induction rest with
  | nil => intro t acc hacc _ j hj; exact hacc j hj
  | cons job rest ih =>
      intro t acc hacc hrest j hj
      unfold fifoGo at hj
      refine ih _ _ ?_ (fun k hk => hrest k (List.mem_cons_of_mem _ hk)) j hj
      intro k hk
      rcases List.mem_append.mp hk with hk | hk
      · exact hacc k hk
      · have hb : 0 ≤ job.burst_time := hrest job (by simp)
        simp only [List.mem_singleton] at hk
        subst hk
        unfold jobOrdered
        dsimp only
        constructor
        · split <;> omega
        · split <;> omega

/-- SJF loop: with nonnegative bursts every completed job satisfies the
ordering chain. -/
theorem sjfLoop_ordered :
    ∀ (fuel : Nat) (t : Int) (acc rem : List Job),
      (∀ j ∈ acc, jobOrdered j) → (∀ j ∈ rem, 0 ≤ j.burst_time) →
      ∀ c, sjfLoop fuel t acc rem = some c → ∀ j ∈ c, jobOrdered j := by
  intro fuel
  induction fuel with
  | zero =>
      intro t acc rem _ _ c h
      exact absurd h (by simp [sjfLoop])
  | succ fuel ih =>
      intro t acc rem hacc hrem c h j hj
      cases rem with
      | nil =>
          have hc : acc = c := by simpa [sjfLoop] using h
          subst hc
          exact hacc j hj
      | cons r rs =>
          unfold sjfLoop at h
          dsimp only at h
          cases hmin : pyMin (fun j => j.burst_time)
              ((r :: rs).filter (fun j => j.arrival_time ≤ t)) with
          | none =>
              rw [hmin] at h
              cases hpm : pyMinInt ((r :: rs).map (fun j => j.arrival_time)) with
              | none => rw [hpm] at h; exact absurd h (by simp)
              | some t0 =>
                  rw [hpm] at h
                  simp only [Option.bind_some] at h
                  exact ih t0 acc (r :: rs) hacc hrem c h j hj
          | some job =>
              rw [hmin] at h
              dsimp only at h
              obtain ⟨hmem, -⟩ := pyMin_eq_some _ hmin
              obtain ⟨hmemr, harr⟩ := List.mem_filter.mp hmem
              have harr' : job.arrival_time ≤ t := of_decide_eq_true harr
              have hb : 0 ≤ job.burst_time := hrem job hmemr
              refine ih _ _ _ ?_ ?_ c h j hj
              · intro k hk
                rcases List.mem_append.mp hk with hk | hk
                · exact hacc k hk
                · simp only [List.mem_singleton] at hk
                  subst hk
                  unfold jobOrdered
                  dsimp only
                  omega
              · intro k hk
                exact hrem k (mem_eraseP hk)

/-- `pyMin` returns `none` only on the empty list. -/
theorem pyMin_eq_none (key : α → Int) {l : List α}
    (h : pyMin key l = none) : l = [] := by
  cases l with
  | nil => rfl
  | cons x xs => exact absurd h (by simp [pyMin])

/-- STCF loop: every completed job satisfies the ordering chain and has
`remaining_time = 0`. -/
theorem stcfLoop_ok :
    ∀ (fuel : Nat) (t : Int) (acc rem : List Job),
      (∀ j ∈ acc, completedOk j) → (∀ j ∈ rem, startInv j t) →
      ∀ c, stcfLoop fuel t acc rem = some c → ∀ j ∈ c, completedOk j := by
  intro fuel
  induction fuel with
  | zero =>
      intro t acc rem _ _ c h
      exact absurd h (by simp [stcfLoop])
  | succ fuel ih =>
      intro t acc rem hacc hrem c h j hj
      cases rem with
      | nil =>
          have hc : acc = c := by simpa [stcfLoop] using h
          subst hc
          exact hacc j hj
      | cons r rs =>
          unfold stcfLoop at h
          dsimp only at h
          cases hmin : pyMin (fun j => j.remaining_time)
              ((r :: rs).filter (fun j => j.arrival_time ≤ t)) with
          | none =>
              rw [hmin] at h
              cases hpm : pyMinInt ((r :: rs).map (fun j => j.arrival_time)) with
              | none => rw [hpm] at h; exact absurd h (by simp)
              | some t0 =>
                  rw [hpm] at h
                  simp only [Option.bind_some] at h
                  have hfil : (r :: rs).filter (fun j => j.arrival_time ≤ t) = [] :=
                    pyMin_eq_none _ hmin
                  have hlate : ∀ k ∈ r :: rs, t < k.arrival_time := by
                    intro k hk
                    by_contra hno
                    have : k ∈ (r :: rs).filter (fun j => j.arrival_time ≤ t) :=
                      List.mem_filter.mpr ⟨hk, decide_eq_true (by omega)⟩
                    rw [hfil] at this
                    cases this
                  have ht0 : t ≤ t0 := by
                    obtain ⟨hmem, -⟩ := pyMin_eq_some _ hpm
                    obtain ⟨k, hk, hke⟩ := List.mem_map.mp hmem
                    have := hlate k hk
                    omega
                  refine ih t0 acc (r :: rs) hacc ?_ c h j hj
                  intro k hk
                  exact startInv_mono ht0 (hrem k hk)
          | some job =>
              rw [hmin] at h
              dsimp only at h
              obtain ⟨hmem, -⟩ := pyMin_eq_some _ hmin
              obtain ⟨hmemr, harrd⟩ := List.mem_filter.mp hmem
              have harr : job.arrival_time ≤ t := of_decide_eq_true harrd
              have hsi : startInv job t := hrem job hmemr
              generalize hj1 :
                (if job.start_time = -1 then { job with start_time := t } else job) = j1 at h
              have hj1a : j1.arrival_time = job.arrival_time := by
                rw [← hj1]
                by_cases hst : job.start_time = -1
                · rw [if_pos hst]
                · rw [if_neg hst]
              have hj1s : job.arrival_time ≤ j1.start_time ∧ j1.start_time ≤ t := by
                rw [← hj1]
                by_cases hst : job.start_time = -1
                · rw [if_pos hst]
                  exact ⟨harr, le_refl t⟩
                · rw [if_neg hst]
                  rcases hsi with h1 | ⟨h1, h2⟩
                  · exact absurd h1 hst
                  · exact ⟨h1, h2⟩
              by_cases hdone : j1.remaining_time - 1 = 0
              · rw [if_pos (show ({ j1 with remaining_time := j1.remaining_time - 1 } :
                    Job).remaining_time = 0 from hdone)] at h
                refine ih _ _ _ ?_ ?_ c h j hj
                · intro k hk
                  rcases List.mem_append.mp hk with hk | hk
                  · exact hacc k hk
                  · simp only [List.mem_singleton] at hk
                    subst hk
                    refine ⟨⟨?_, ?_⟩, hdone⟩
                    · dsimp only
                      omega
                    · dsimp only
                      omega
                · intro k hk
                  rcases mem_replaceFirst (mem_eraseP hk) with hk1 | hk1
                  · rcases mem_replaceFirst hk1 with hk2 | hk2
                    · exact startInv_mono (by omega) (hrem k hk2)
                    · subst hk2
                      exact Or.inr ⟨by dsimp only; omega, by dsimp only; omega⟩
                  · subst hk1
                    exact Or.inr ⟨by dsimp only; omega, by dsimp only; omega⟩
              · rw [if_neg (show ¬ ({ j1 with remaining_time := j1.remaining_time - 1 } :
                    Job).remaining_time = 0 from hdone)] at h
                refine ih _ _ _ hacc ?_ c h j hj
                intro k hk
                rcases mem_replaceFirst hk with hk1 | hk1
                · exact startInv_mono (by omega) (hrem k hk1)
                · subst hk1
                  exact Or.inr ⟨by dsimp only; omega, by dsimp only; omega⟩

/-- Members of the two sides of a Round Robin arrival scan: the untouched
waiting tail and the ready queue extended by arrived jobs. -/
theorem rrArrivals_mem (t : Int) :
    ∀ (w r : List Job),
      (∀ j ∈ (rrArrivals t w r).1, j ∈ w) ∧
      (∀ j ∈ (rrArrivals t w r).2, j ∈ r ∨ (j ∈ w ∧ j.arrival_time ≤ t)) := by
  intro w
  induction w with
  | nil =>
      intro r
      refine ⟨?_, ?_⟩
      · intro j hj
        simp [rrArrivals] at hj
      · intro j hj
        exact Or.inl hj
  | cons x xs ih =>
      intro r
      unfold rrArrivals
      by_cases ha : x.arrival_time ≤ t
      · rw [if_pos ha]
        obtain ⟨ih1, ih2⟩ := ih (r ++ [x])
        refine ⟨?_, ?_⟩
        · intro j hj
          exact List.mem_cons_of_mem _ (ih1 j hj)
        · intro j hj
          rcases ih2 j hj with hj1 | ⟨hj1, hj2⟩
          · rcases List.mem_append.mp hj1 with h2 | h2
            · exact Or.inl h2
            · simp only [List.mem_singleton] at h2
              subst h2
              exact Or.inr ⟨by simp, ha⟩
          · exact Or.inr ⟨List.mem_cons_of_mem _ hj1, hj2⟩
      · rw [if_neg ha]
        exact ⟨fun j hj => hj, fun j hj => Or.inl hj⟩

/-- One Round Robin dispatch preserves the loop invariant. -/
theorem rrTick_ok (q : Int) (hq : 0 < q) (t : Int) (w : List Job) (job : Job)
    (rdy acc : List Job) (d : List (Int × Int))
    (hw : ∀ j ∈ w, freshJob j) (hjob : queuedInv job t)
    (hr : ∀ j ∈ rdy, queuedInv j t) (hacc : ∀ j ∈ acc, completedOk j) :
    (∀ j ∈ (rrTick q t w job rdy acc d).2.1, freshJob j) ∧
    (∀ j ∈ (rrTick q t w job rdy acc d).2.2.1,
      queuedInv j (rrTick q t w job rdy acc d).1) ∧
    (∀ j ∈ (rrTick q t w job rdy acc d).2.2.2.1, completedOk j) := by
  obtain ⟨hrem1, harr, hst⟩ :=
    (hjob : 1 ≤ job.remaining_time ∧ job.arrival_time ≤ t ∧ startInv job t)
  unfold rrTick
  generalize hj1 :
    (if job.start_time = -1 then { job with start_time := t } else job) = j1
  have hj1r : j1.remaining_time = job.remaining_time := by
    rw [← hj1]
    by_cases hs : job.start_time = -1
    · rw [if_pos hs]
    · rw [if_neg hs]
  have hj1a : j1.arrival_time = job.arrival_time := by
    rw [← hj1]
    by_cases hs : job.start_time = -1
    · rw [if_pos hs]
    · rw [if_neg hs]
  have hj1s : job.arrival_time ≤ j1.start_time ∧ j1.start_time ≤ t := by
    rw [← hj1]
    by_cases hs : job.start_time = -1
    · rw [if_pos hs]
      exact ⟨harr, le_refl t⟩
    · rw [if_neg hs]
      rcases hst with h1 | ⟨h1, h2⟩
      · exact absurd h1 hs
      · exact ⟨h1, h2⟩
  have hE1 : 1 ≤ min q j1.remaining_time := le_min (by omega) (by omega)
  have hEr : min q j1.remaining_time ≤ j1.remaining_time := min_le_right _ _
  have harrmem := rrArrivals_mem (t + min q j1.remaining_time) w rdy
  by_cases hpos : (0 : Int) < j1.remaining_time - min q j1.remaining_time
  · rw [if_pos (show (0 : Int) <
        ({ j1 with remaining_time := j1.remaining_time - min q j1.remaining_time } :
          Job).remaining_time from hpos)]
    dsimp only
    refine ⟨?_, ?_, ?_⟩
    · intro k hk
      exact hw k (harrmem.1 k hk)
    · intro k hk
      rcases List.mem_append.mp hk with hk1 | hk1
      · rcases harrmem.2 k hk1 with hk2 | ⟨hk2, hk3⟩
        · exact queuedInv_mono (by omega) (hr k hk2)
        · obtain ⟨hf1, hf2⟩ := hw k hk2
          exact ⟨hf2, hk3, Or.inl hf1⟩
      · simp only [List.mem_singleton] at hk1
        subst hk1
        refine ⟨by dsimp only; omega, by dsimp only; omega, Or.inr ?_⟩
        dsimp only
        omega
    · intro k hk
      exact hacc k hk
  · rw [if_neg (show ¬ (0 : Int) <
        ({ j1 with remaining_time := j1.remaining_time - min q j1.remaining_time } :
          Job).remaining_time from hpos)]
    dsimp only
    refine ⟨?_, ?_, ?_⟩
    · intro k hk
      exact hw k (harrmem.1 k hk)
    · intro k hk
      rcases harrmem.2 k hk with hk2 | ⟨hk2, hk3⟩
      · exact queuedInv_mono (by omega) (hr k hk2)
      · obtain ⟨hf1, hf2⟩ := hw k hk2
        exact ⟨hf2, hk3, Or.inl hf1⟩
    · intro k hk
      rcases List.mem_append.mp hk with hk1 | hk1
      · exact hacc k hk1
      · simp only [List.mem_singleton] at hk1
        subst hk1
        refine ⟨⟨by dsimp only; omega, by dsimp only; omega⟩, by dsimp only; omega⟩

/-- Round Robin loop: with a positive quantum every completed job satisfies
the ordering chain and has `remaining_time = 0`. -/
theorem rrLoop_ok (q : Int) (hq : 0 < q) :
    ∀ (fuel : Nat) (t : Int) (w rdy acc : List Job) (d : List (Int × Int)),
      (∀ j ∈ w, freshJob j) → (∀ j ∈ rdy, queuedInv j t) →
      (∀ j ∈ acc, completedOk j) →
      ∀ out, rrLoop q fuel t w rdy acc d = some out → ∀ j ∈ out.1, completedOk j := by
  intro fuel
  induction fuel with
  | zero =>
      intro t w rdy acc d _ _ _ out h
      exact absurd h (by simp [rrLoop])
  | succ fuel ih =>
      intro t w rdy acc d hw hr hacc out h j hj
      unfold rrLoop at h
      by_cases hstop : w = [] ∧ rdy = []
      · rw [if_pos hstop] at h
        simp only [Option.some.injEq] at h
        subst h
        exact hacc j hj
      · rw [if_neg hstop] at h
        dsimp only at h
        cases ha2 : (rrArrivals t w rdy).2 with
        | nil =>
            rw [ha2] at h
            cases ha1 : (rrArrivals t w rdy).1 with
            | nil =>
                rw [ha1] at h
                simp only [Option.some.injEq] at h
                subst h
                exact hacc j hj
            | cons w1 ws1 =>
                rw [ha1] at h
                dsimp only at h
                refine ih _ _ _ _ _ ?_ ?_ hacc out h j hj
                · intro k hk
                  rw [← ha1] at hk
                  exact hw k ((rrArrivals_mem t w rdy).1 k hk)
                · intro k hk
                  cases hk
        | cons job rdy0 =>
            rw [ha2] at h
            dsimp only at h
            have hready : ∀ k ∈ job :: rdy0, queuedInv k t := by
              intro k hk
              rw [← ha2] at hk
              rcases (rrArrivals_mem t w rdy).2 k hk with hk1 | ⟨hk1, hk2⟩
              · exact hr k hk1
              · obtain ⟨hf1, hf2⟩ := hw k hk1
                exact ⟨hf2, hk2, Or.inl hf1⟩
            have hwait : ∀ k ∈ (rrArrivals t w rdy).1, freshJob k := by
              intro k hk
              exact hw k ((rrArrivals_mem t w rdy).1 k hk)
            obtain ⟨hb1, hb2, hb3⟩ := rrTick_ok q hq t (rrArrivals t w rdy).1 job rdy0
              acc d hwait (hready job (by simp))
              (fun k hk => hready k (List.mem_cons_of_mem _ hk)) hacc
            exact ih _ _ _ _ _ hb1 hb2 hb3 out h j hj

/-- Members of the two sides of a CFS arrival scan. -/
theorem cfsArrivals_mem (t : Int) :
    ∀ (w r : List Job) (vr : List (Int × Int)),
      (∀ j ∈ (cfsArrivals t w r vr).1, j ∈ w) ∧
      (∀ j ∈ (cfsArrivals t w r vr).2.1, j ∈ r ∨ (j ∈ w ∧ j.arrival_time ≤ t)) := by
  intro w
  induction w with
  | nil =>
      intro r vr
      refine ⟨?_, ?_⟩
      · intro j hj
        simp [cfsArrivals] at hj
      · intro j hj
        exact Or.inl hj
  | cons x xs ih =>
      intro r vr
      unfold cfsArrivals
      by_cases ha : x.arrival_time ≤ t
      · rw [if_pos ha]
        obtain ⟨ih1, ih2⟩ := ih (r ++ [x]) (vrSet vr x.job_id (minVruntime vr))
        refine ⟨?_, ?_⟩
        · intro j hj
          exact List.mem_cons_of_mem _ (ih1 j hj)
        · intro j hj
          rcases ih2 j hj with hj1 | ⟨hj1, hj2⟩
          · rcases List.mem_append.mp hj1 with h2 | h2
            · exact Or.inl h2
            · simp only [List.mem_singleton] at h2
              subst h2
              exact Or.inr ⟨by simp, ha⟩
          · exact Or.inr ⟨List.mem_cons_of_mem _ hj1, hj2⟩
      · rw [if_neg ha]
        exact ⟨fun j hj => hj, fun j hj => Or.inl hj⟩

/-- One executed CFS tick preserves the loop invariant. -/
theorem cfsTick_ok (t : Int) (w : List Job) (r : Job) (rs : List Job)
    (vr : List (Int × Int)) (acc : List Job) (tr : List (Int × Int))
    (hw : ∀ j ∈ w, freshJob j) (hr : ∀ j ∈ r :: rs, readyInv j t)
    (hacc : ∀ j ∈ acc, completedOk j) :
    (∀ j ∈ (cfsTick t w r rs vr acc tr).2.1, freshJob j) ∧
    (∀ j ∈ (cfsTick t w r rs vr acc tr).2.2.1,
      readyInv j (cfsTick t w r rs vr acc tr).1) ∧
    (∀ j ∈ (cfsTick t w r rs vr acc tr).2.2.2.2.1, completedOk j) := by
  unfold cfsTick
  dsimp only
  generalize hjb : pyMin1 (fun j => vrLookup vr j.job_id) r rs = job
  have hjob : readyInv job t := by
    rw [← hjb]
    exact hr _ (pyMin1_mem _ rs r)
  obtain ⟨harr, hst⟩ := (hjob : job.arrival_time ≤ t ∧ startInv job t)
  generalize hj1 :
    (if job.start_time = -1 then { job with start_time := t } else job) = j1
  have hj1r : j1.remaining_time = job.remaining_time := by
    rw [← hj1]
    by_cases hs : job.start_time = -1
    · rw [if_pos hs]
    · rw [if_neg hs]
  have hj1a : j1.arrival_time = job.arrival_time := by
    rw [← hj1]
    by_cases hs : job.start_time = -1
    · rw [if_pos hs]
    · rw [if_neg hs]
  have hj1s : job.arrival_time ≤ j1.start_time ∧ j1.start_time ≤ t := by
    rw [← hj1]
    by_cases hs : job.start_time = -1
    · rw [if_pos hs]
      exact ⟨harr, le_refl t⟩
    · rw [if_neg hs]
      rcases hst with h1 | ⟨h1, h2⟩
      · exact absurd h1 hs
      · exact ⟨h1, h2⟩
  have hready1 : ∀ k ∈ replaceFirst (fun k => k == job)
      { j1 with remaining_time := j1.remaining_time - 1 } (r :: rs),
      readyInv k (t + 1) := by
    intro k hk
    rcases mem_replaceFirst hk with hk1 | hk1
    · exact readyInv_mono (by omega) (hr k hk1)
    · subst hk1
      exact ⟨by dsimp only; omega, Or.inr ⟨by dsimp only; omega, by dsimp only; omega⟩⟩
  have harrmem := cfsArrivals_mem (t + 1) w
    (replaceFirst (fun k => k == job) { j1 with remaining_time := j1.remaining_time - 1 }
      (r :: rs))
    (vrSet vr job.job_id (vrLookup vr job.job_id + 1))
  have hready2 : ∀ k ∈ (cfsArrivals (t + 1) w
      (replaceFirst (fun k => k == job)
        { j1 with remaining_time := j1.remaining_time - 1 } (r :: rs))
      (vrSet vr job.job_id (vrLookup vr job.job_id + 1))).2.1,
      readyInv k (t + 1) := by
    intro k hk
    rcases harrmem.2 k hk with hk1 | ⟨hk1, hk2⟩
    · exact hready1 k hk1
    · obtain ⟨hf1, -⟩ := hw k hk1
      exact ⟨hk2, Or.inl hf1⟩
  by_cases hdone : j1.remaining_time - 1 = 0
  · rw [if_pos (show ({ j1 with remaining_time := j1.remaining_time - 1 } :
        Job).remaining_time = 0 from hdone)]
    dsimp only
    refine ⟨?_, ?_, ?_⟩
    · intro k hk
      exact hw k (harrmem.1 k hk)
    · intro k hk
      rcases mem_replaceFirst (mem_eraseP hk) with hk1 | hk1
      · exact hready2 k hk1
      · subst hk1
        exact ⟨by dsimp only; omega, Or.inr ⟨by dsimp only; omega, by dsimp only; omega⟩⟩
    · intro k hk
      rcases List.mem_append.mp hk with hk1 | hk1
      · exact hacc k hk1
      · simp only [List.mem_singleton] at hk1
        subst hk1
        exact ⟨⟨by dsimp only; omega, by dsimp only; omega⟩, hdone⟩
  · rw [if_neg (show ¬ ({ j1 with remaining_time := j1.remaining_time - 1 } :
        Job).remaining_time = 0 from hdone)]
    dsimp only
    refine ⟨?_, ?_, ?_⟩
    · intro k hk
      exact hw k (harrmem.1 k hk)
    · intro k hk
      exact hready2 k hk
    · intro k hk
      exact hacc k hk

/-- CFS loop: every completed job satisfies the ordering chain and has
`remaining_time = 0`. -/
theorem cfsLoop_ok :
    ∀ (fuel : Nat) (t : Int) (w rdy : List Job) (vr : List (Int × Int))
      (acc : List Job) (tr : List (Int × Int)),
      (∀ j ∈ w, freshJob j) → (∀ j ∈ rdy, readyInv j t) →
      (∀ j ∈ acc, completedOk j) →
      ∀ out, cfsLoop fuel t w rdy vr acc tr = some out → ∀ j ∈ out.1, completedOk j := by
  intro fuel
  induction fuel with
  | zero =>
      intro t w rdy vr acc tr _ _ _ out h
      exact absurd h (by simp [cfsLoop])
  | succ fuel ih =>
      intro t w rdy vr acc tr hw hr hacc out h j hj
      unfold cfsLoop at h
      by_cases hstop : w = [] ∧ rdy = []
      · rw [if_pos hstop] at h
        simp only [Option.some.injEq] at h
        subst h
        exact hacc j hj
      · rw [if_neg hstop] at h
        dsimp only at h
        cases ha2 : (cfsArrivals t w rdy vr).2.1 with
        | nil =>
            rw [ha2] at h
            cases ha1 : (cfsArrivals t w rdy vr).1 with
            | nil =>
                rw [ha1] at h
                simp only [Option.some.injEq] at h
                subst h
                exact hacc j hj
            | cons w1 ws1 =>
                rw [ha1] at h
                dsimp only at h
                refine ih _ _ _ _ _ _ ?_ ?_ hacc out h j hj
                · intro k hk
                  rw [← ha1] at hk
                  exact hw k ((cfsArrivals_mem t w rdy vr).1 k hk)
                · intro k hk
                  cases hk
        | cons r rs =>
            rw [ha2] at h
            dsimp only at h
            have hready : ∀ k ∈ r :: rs, readyInv k t := by
              intro k hk
              rw [← ha2] at hk
              rcases (cfsArrivals_mem t w rdy vr).2 k hk with hk1 | ⟨hk1, hk2⟩
              · exact hr k hk1
              · obtain ⟨hf1, -⟩ := hw k hk1
                exact ⟨hk2, Or.inl hf1⟩
            have hwait : ∀ k ∈ (cfsArrivals t w rdy vr).1, freshJob k := by
              intro k hk
              exact hw k ((cfsArrivals_mem t w rdy vr).1 k hk)
            obtain ⟨hb1, hb2, hb3⟩ := cfsTick_ok t (cfsArrivals t w rdy vr).1 r rs
              (cfsArrivals t w rdy vr).2.2 acc tr hwait hready hacc
            exact ih _ _ _ _ _ _ hb1 hb2 hb3 out h j hj

theorem mlfqInv_completed {s : MLFQState} (h : mlfqInv s) :
    ∀ j ∈ s.completed, completedOk j := by
  unfold mlfqInv at h
  exact h.2.2.2.2

/-- The boost phase touches only priorities and `time_in_queue`, so the
MLFQ loop invariant survives it. -/
theorem mlfqInv_boost (cfg : MLFQConfig) (s : MLFQState) (h : mlfqInv s) :
    mlfqInv (phaseBoost cfg s) := by
  unfold mlfqInv at h
  obtain ⟨h1, h2, h3, h4, h5⟩ := h
  unfold phaseBoost
  by_cases hb : boostCond cfg.boost_interval s.time_since_boost
  · rw [if_pos hb]
    unfold mlfqInv
    refine ⟨h1, ?_, h3, ?_, h5⟩
    · intro q hq j hj
      unfold boost_all_jobs at hq
      dsimp only at hq
      rcases List.mem_or_eq_of_mem_set hq with hmem | heq
      · rw [List.eq_of_mem_replicate hmem] at hj
        cases hj
      · subst heq
        rcases List.mem_map.mp hj with ⟨x, hx, hxe⟩
        obtain ⟨q0, hq0, hxq0⟩ := List.mem_flatten.mp hx
        subst hxe
        exact h2 q0 hq0 x hxq0
    · intro j hj
      unfold boost_all_jobs at hj
      dsimp only at hj
      rcases hcur : s.current with _ | j0
      · rw [hcur] at hj
        cases hj
      · rw [hcur] at hj
        simp only [Option.map_some', Option.some.injEq] at hj
        subst hj
        exact h4 j0 hcur
  · rw [if_neg hb]
    exact ⟨h1, h2, h3, h4, h5⟩

/-- The I/O-return phase preserves the MLFQ loop invariant. -/
theorem mlfqInv_ioReturn (s : MLFQState) (h : mlfqInv s) :
    mlfqInv (phaseIOReturn s) := by
  unfold mlfqInv at h
  obtain ⟨h1, h2, h3, h4, h5⟩ := h
  unfold phaseIOReturn ioReturnStep
  dsimp only
  unfold mlfqInv
  refine ⟨h1, ?_, ?_, h4, h5⟩
  · intro q hq j hj
    rcases mem_ioReturn_fold _ _ q j hq hj with ⟨q0, hq0, hjq0⟩ | ⟨x, hx, hxe⟩
    · exact h2 q0 hq0 j hjq0
    · subst hxe
      exact h3 x (List.mem_filter.mp hx).1
  · intro j hj
    exact h3 j (List.mem_filter.mp hj).1

/-- Strengthened membership for the arrival scan: an arrived job really had
`arrival_time ≤ t`. -/
theorem mem_mlfqArrivals_arr :
    ∀ (t : Int) (w : List Job) (qs : List (List Job)) (q' : List Job) (j : Job),
      q' ∈ (mlfqArrivals t w qs).2 → j ∈ q' →
      (∃ q ∈ qs, j ∈ q) ∨
      ∃ x ∈ w, x.arrival_time ≤ t ∧ j = { x with priority := 0, time_in_queue := 0 } := by
  intro t w
  induction w with
  | nil =>
      intro qs q' j hq hj
      exact Or.inl ⟨q', by simpa [mlfqArrivals] using hq, hj⟩
  | cons x xs ih =>
      intro qs q' j hq hj
      unfold mlfqArrivals at hq
      by_cases ha : x.arrival_time ≤ t
      · rw [if_pos ha] at hq
        rcases ih _ q' j hq hj with hcase | ⟨y, hy, hya, hye⟩
        · rcases hcase with ⟨q, hqmem, hjq⟩
          rcases mem_qAppend hqmem hjq with hcase2 | heq
          · exact Or.inl hcase2
          · exact Or.inr ⟨x, by simp, ha, heq⟩
        · exact Or.inr ⟨y, List.mem_cons_of_mem _ hy, hya, hye⟩
      · rw [if_neg ha] at hq
        exact Or.inl ⟨q', hq, hj⟩

/-- The arrival scan leaves a suffix of the waiting list. -/
theorem mem_mlfqArrivals_waiting :
    ∀ (t : Int) (w : List Job) (qs : List (List Job)) (j : Job),
      j ∈ (mlfqArrivals t w qs).1 → j ∈ w := by
  intro t w
  induction w with
  | nil =>
      intro qs j hj
      simpa [mlfqArrivals] using hj
  | cons x xs ih =>
      intro qs j hj
      unfold mlfqArrivals at hj
      by_cases ha : x.arrival_time ≤ t
      · rw [if_pos ha] at hj
        exact List.mem_cons_of_mem _ (ih _ j hj)
      · rw [if_neg ha] at hj
        exact hj

/-- The arrival phase preserves the MLFQ loop invariant. -/
theorem mlfqInv_arrivals (s : MLFQState) (h : mlfqInv s) :
    mlfqInv (phaseArrivals s) := by
  unfold mlfqInv at h
  obtain ⟨h1, h2, h3, h4, h5⟩ := h
  unfold phaseArrivals
  dsimp only
  unfold mlfqInv
  refine ⟨?_, ?_, h3, h4, h5⟩
  · intro j hj
    exact h1 j (mem_mlfqArrivals_waiting _ _ _ j hj)
  · intro q hq j hj
    rcases mem_mlfqArrivals_arr _ _ _ q j hq hj with ⟨q0, hq0, hjq0⟩ | ⟨x, hx, hxa, hxe⟩
    · exact h2 q0 hq0 j hjq0
    · subst hxe
      obtain ⟨hf1, hf2⟩ := h1 x hx
      exact ⟨hf2, hxa, Or.inl hf1⟩

/-- The retire phase preserves the MLFQ loop invariant, and the job (if
any) that stays on the CPU has work left. -/
theorem mlfqInv_retire (cfg : MLFQConfig) (s : MLFQState) (h : mlfqInv s) :
    mlfqInv (phaseRetire cfg s) ∧
    (∀ j : Job, (phaseRetire cfg s).current = some j → 1 ≤ j.remaining_time) ∧
    (phaseRetire cfg s).current_time = s.current_time := by
  obtain ⟨w, qs, io, cur, qr, cpu, comp, tm, tsb⟩ := s
  unfold mlfqInv at h
  obtain ⟨h1, h2, h3, h4, h5⟩ := h
  unfold phaseRetire
  dsimp only at h1 h2 h3 h4 h5 ⊢
  cases cur with
  | none =>
      dsimp only
      refine ⟨⟨h1, h2, h3, h4, h5⟩, ?_, rfl⟩
      intro j hj
      cases hj
  | some j0 =>
      dsimp only
      have hrun : runningInv j0 tm := h4 j0 rfl
      obtain ⟨hr0, hr1, hr2⟩ :=
        (hrun : 0 ≤ j0.remaining_time ∧ j0.arrival_time ≤ j0.start_time ∧ j0.start_time ≤ tm)
      by_cases hc : qr ≤ 0 ∨ j0.remaining_time ≤ 0 ∨ j0.waiting_for_io = true
      · rw [if_pos hc]
        unfold retireStep
        by_cases hdone : j0.remaining_time ≤ 0
        · rw [if_pos hdone]
          dsimp only
          refine ⟨⟨h1, h2, h3, ?_, ?_⟩, ?_, rfl⟩
          · intro j hj
            cases hj
          · intro k hk
            rcases List.mem_append.mp hk with hk1 | hk1
            · exact h5 k hk1
            · simp only [List.mem_singleton] at hk1
              subst hk1
              exact ⟨⟨hr1, by dsimp only; omega⟩, by dsimp only; omega⟩
          · intro j hj
            cases hj
        · rw [if_neg hdone]
          by_cases hio : j0.waiting_for_io = true
          · rw [if_pos hio]
            dsimp only
            refine ⟨⟨h1, h2, ?_, ?_, h5⟩, ?_, rfl⟩
            · intro k hk
              rcases List.mem_append.mp hk with hk1 | hk1
              · exact h3 k hk1
              · simp only [List.mem_singleton] at hk1
                subst hk1
                exact ⟨by omega, le_trans hr1 hr2, Or.inr ⟨hr1, hr2⟩⟩
            · intro j hj
              cases hj
            · intro j hj
              cases hj
          · rw [if_neg hio]
            dsimp only
            generalize hjd :
              (if cfg.time_allotments.getD j0.priority.toNat 0 ≤ j0.time_in_queue then
                { j0 with priority := min (j0.priority + 1) ((cfg.num_queues : Int) - 1)
                          time_in_queue := 0 }
               else j0) = j1
            have hjf : j1.remaining_time = j0.remaining_time ∧
                j1.arrival_time = j0.arrival_time ∧ j1.start_time = j0.start_time := by
              rw [← hjd]
              by_cases hd : cfg.time_allotments.getD j0.priority.toNat 0 ≤ j0.time_in_queue
              · rw [if_pos hd]
                exact ⟨rfl, rfl, rfl⟩
              · rw [if_neg hd]
                exact ⟨rfl, rfl, rfl⟩
            obtain ⟨hjf1, hjf2, hjf3⟩ := hjf
            refine ⟨⟨h1, ?_, h3, ?_, h5⟩, ?_, rfl⟩
            · intro q hq k hk
              rcases mem_qAppend hq hk with ⟨q0, hq0, hkq0⟩ | heq
              · exact h2 q0 hq0 k hkq0
              · subst heq
                refine ⟨?_, ?_, Or.inr ⟨?_, ?_⟩⟩ <;> dsimp only <;> omega
            · intro j hj
              cases hj
            · intro j hj
              cases hj
      · rw [if_neg hc]
        refine ⟨⟨h1, h2, h3, h4, h5⟩, ?_, rfl⟩
        intro j hj
        injection hj with he
        subst he
        push_neg at hc
        omega

/-- The select phase preserves the MLFQ loop invariant, and the selected
job has work left. -/
theorem mlfqInv_select (cfg : MLFQConfig) (s : MLFQState) (h : mlfqInv s)
    (hcur : ∀ j : Job, s.current = some j → 1 ≤ j.remaining_time) :
    mlfqInv (phaseSelect cfg s) ∧
    (∀ j : Job, (phaseSelect cfg s).current = some j → 1 ≤ j.remaining_time) ∧
    (phaseSelect cfg s).current_time = s.current_time := by
  obtain ⟨w, qs, io, cur, qr, cpu, comp, tm, tsb⟩ := s
  unfold mlfqInv at h
  obtain ⟨h1, h2, h3, h4, h5⟩ := h
  unfold phaseSelect
  dsimp only at h1 h2 h3 h4 h5 hcur ⊢
  cases cur with
  | some j0 =>
      dsimp only
      exact ⟨⟨h1, h2, h3, h4, h5⟩, hcur, rfl⟩
  | none =>
      dsimp only
      cases hsel : selectScan qs with
      | none =>
          dsimp only
          refine ⟨⟨h1, h2, h3, h4, h5⟩, ?_, rfl⟩
          intro j hj
          cases hj
      | some x =>
          obtain ⟨j0, p, qs'⟩ := x
          dsimp only
          obtain ⟨⟨q0, hq0, hj0⟩, hsub⟩ := mem_selectScan qs j0 p qs' hsel
          obtain ⟨hq1, hq2, hq3⟩ :=
            (h2 q0 hq0 j0 hj0 :
              1 ≤ j0.remaining_time ∧ j0.arrival_time ≤ tm ∧ startInv j0 tm)
          generalize hjs :
            (if j0.start_time = -1 then { j0 with start_time := tm } else j0) = j1
          have hjf : j1.remaining_time = j0.remaining_time ∧
              j1.arrival_time = j0.arrival_time ∧
              j0.arrival_time ≤ j1.start_time ∧ j1.start_time ≤ tm := by
            rw [← hjs]
            by_cases hd : j0.start_time = -1
            · rw [if_pos hd]
              exact ⟨rfl, rfl, hq2, le_refl tm⟩
            · rw [if_neg hd]
              rcases hq3 with hx | ⟨hx1, hx2⟩
              · exact absurd hx hd
              · exact ⟨rfl, rfl, hx1, hx2⟩
          obtain ⟨hjf1, hjf2, hjf3, hjf4⟩ := hjf
          refine ⟨⟨h1, ?_, h3, ?_, h5⟩, ?_, rfl⟩
          · intro q hq k hk
            obtain ⟨q2, hq2m, hkq2⟩ := hsub q hq k hk
            exact h2 q2 hq2m k hkq2
          · intro j hj
            injection hj with he
            subst he
            exact ⟨by omega, by omega, hjf4⟩
          · intro j hj
            injection hj with he
            subst he
            omega

/-- `needs_io` never changes the fields the loop invariant tracks. -/
theorem needs_io_frame (j : Job) (c : Int) :
    ((needs_io j c).2).remaining_time = j.remaining_time ∧
    ((needs_io j c).2).arrival_time = j.arrival_time ∧
    ((needs_io j c).2).start_time = j.start_time := by
  unfold needs_io
  cases j.io_operations with
  | nil => exact ⟨rfl, rfl, rfl⟩
  | cons a l =>
      dsimp only
      by_cases hc : c = a
      · rw [if_pos hc]
        exact ⟨rfl, rfl, rfl⟩
      · rw [if_neg hc]
        exact ⟨rfl, rfl, rfl⟩

/-- The execute phase preserves the MLFQ loop invariant when the job on the
CPU has work left. -/
theorem mlfqInv_exec (s : MLFQState) (h : mlfqInv s)
    (hcur : ∀ j : Job, s.current = some j → 1 ≤ j.remaining_time) :
    mlfqInv (phaseExec s).2 := by
  unfold mlfqInv at h
  obtain ⟨h1, h2, h3, h4, h5⟩ := h
  unfold phaseExec
  cases hs : s.current with
  | none =>
      exact ⟨h1, h2, h3, h4, h5⟩
  | some j0 =>
      dsimp only
      have hrem1 : 1 ≤ j0.remaining_time := hcur j0 hs
      obtain ⟨hr0, hr1, hr2⟩ :=
        (h4 j0 hs : 0 ≤ j0.remaining_time ∧ j0.arrival_time ≤ j0.start_time ∧
          j0.start_time ≤ s.current_time)
      obtain ⟨hf1, hf2, hf3⟩ := needs_io_frame j0 (j0.burst_time - j0.remaining_time)
      cases hn : needs_io j0 (j0.burst_time - j0.remaining_time) with
      | mk fst snd =>
          rw [hn] at hf1 hf2 hf3
          dsimp only at hf1 hf2 hf3
          dsimp only
          by_cases hfst : fst = true
          · rw [if_pos hfst]
            refine ⟨h1, h2, h3, ?_, h5⟩
            intro k hk
            injection hk with he
            subst he
            refine ⟨?_, ?_, ?_⟩ <;> dsimp only <;> omega
          · rw [if_neg hfst]
            refine ⟨h1, h2, h3, ?_, h5⟩
            intro k hk
            injection hk with he
            subst he
            refine ⟨?_, ?_, ?_⟩ <;> dsimp only <;> omega

/-- The clock tick preserves the MLFQ loop invariant. -/
theorem mlfqInv_tick (s : MLFQState) (h : mlfqInv s) : mlfqInv (phaseTick s) := by
  unfold mlfqInv at h
  obtain ⟨h1, h2, h3, h4, h5⟩ := h
  unfold phaseTick
  unfold mlfqInv
  dsimp only
  refine ⟨h1, ?_, ?_, ?_, h5⟩
  · intro q hq j hj
    exact queuedInv_mono (by omega) (h2 q hq j hj)
  · intro j hj
    exact queuedInv_mono (by omega) (h3 j hj)
  · intro j hj
    exact runningInv_mono (by omega) (h4 j hj)

/-- One full MLFQ iteration preserves the loop invariant. -/
theorem mlfqInv_step (cfg : MLFQConfig) (s : MLFQState) (h : mlfqInv s) :
    mlfqInv (mlfqStep cfg s).2 := by
  have hs1 := mlfqInv_arrivals _ (mlfqInv_ioReturn _ (mlfqInv_boost cfg s h))
  obtain ⟨hs2, hc2, -⟩ := mlfqInv_retire cfg _ hs1
  obtain ⟨hs3, hc3, -⟩ := mlfqInv_select cfg _ hs2 hc2
  exact mlfqInv_tick _ (mlfqInv_exec _ hs3 hc3)

/-- MLFQ loop: from an invariant state every completed job satisfies the
ordering chain and has `remaining_time = 0`. -/
theorem mlfqLoop_ok (cfg : MLFQConfig) :
    ∀ (fuel : Nat) (s : MLFQState), mlfqInv s →
      ∀ out, mlfqLoop cfg fuel s = some out → ∀ j ∈ out.1, completedOk j := by
  intro fuel
  induction fuel with
  | zero =>
      intro s _ out h
      exact absurd h (by simp [mlfqLoop])
  | succ fuel ih =>
      intro s hs out h j hj
      unfold mlfqLoop at h
      by_cases hdone : mlfqDone s
      · rw [if_pos hdone] at h
        simp only [Option.some.injEq] at h
        subst h
        exact mlfqInv_completed hs j hj
      · rw [if_neg hdone] at h
        cases hl : mlfqLoop cfg fuel (mlfqStep cfg s).2 with
        | none =>
            rw [hl] at h
            exact absurd h (by simp)
        | some x =>
            rw [hl] at h
            simp only [Option.map_some', Option.some.injEq] at h
            subst h
            exact ih _ (mlfqInv_step cfg s hs) x hl j hj

/-- C1 (amended): for every engine, every job in the completed collection
of a successful `schedule` run over fresh inputs satisfies
`arrival_time ≤ start_time ≤ completion_time`; the tick-based engines
(STCF, Round Robin, CFS, MLFQ — those whose completion test reads
`remaining_time`) additionally leave `remaining_time = 0` on completion,
while FIFO and SJF never decrement `remaining_time` at all. -/
theorem C1_completed_bounds :
    (∀ (jobs c : List Job) (m : Metrics),
      (∀ j ∈ jobs, freshInput j) →
      fifoSchedule jobs = some (c, m) → ∀ j ∈ c, jobOrdered j) ∧
    (∀ (fuel : Nat) (jobs c : List Job) (m : Metrics),
      (∀ j ∈ jobs, freshInput j) →
      sjfSchedule fuel jobs = some (c, m) → ∀ j ∈ c, jobOrdered j) ∧
    (∀ (fuel : Nat) (jobs c : List Job) (m : Metrics),
      (∀ j ∈ jobs, freshInput j) →
      stcfSchedule fuel jobs = some (c, m) → ∀ j ∈ c, completedOk j) ∧
    (∀ (q : Int) (fuel : Nat) (jobs c : List Job) (d : List (Int × Int)) (m : Metrics),
      0 < q → (∀ j ∈ jobs, freshInput j) →
      rrSchedule q fuel jobs = some (c, d, m) → ∀ j ∈ c, completedOk j) ∧
    (∀ (fuel : Nat) (jobs c : List Job) (tr : List (Int × Int)) (m : Metrics),
      (∀ j ∈ jobs, freshInput j) →
      cfsSchedule fuel jobs = some (c, tr, m) → ∀ j ∈ c, completedOk j) ∧
    (∀ (cfg : MLFQConfig) (p : MLFQPersist) (fuel : Nat) (jobs : List Job)
      (out : (List Job × Metrics × List TLEntry) × MLFQPersist),
      (∀ j ∈ jobs, freshInput j) → (∀ qq ∈ p.queues, qq = []) →
      mlfqSchedule cfg p fuel jobs = some out → ∀ j ∈ out.1.1, completedOk j) := by
  refine ⟨?_, ?_, ?_, ?_, ?_, ?_⟩
  · intro jobs c m hfresh h
    unfold fifoSchedule at h
    dsimp only at h
    cases hm : calculate_metrics
        (fifoGo 0 [] (pySorted (fun j => j.arrival_time) jobs)) with
    | none =>
        rw [hm] at h
        cases h
    | some m0 =>
        rw [hm] at h
        simp only [Option.map_some', Option.some.injEq, Prod.mk.injEq] at h
        obtain ⟨hc, -⟩ := h
        subst hc
        refine fifoGo_ordered _ 0 [] (by intro k hk; cases hk) ?_
        intro k hk
        obtain ⟨-, hk2, hk3⟩ := (hfresh k ((mem_pySorted _ jobs k).mp hk) :
          k.start_time = -1 ∧ 1 ≤ k.remaining_time ∧ k.remaining_time = k.burst_time)
        omega
  · intro fuel jobs c m hfresh h
    unfold sjfSchedule at h
    cases hl : sjfLoop fuel 0 [] jobs with
    | none =>
        rw [hl] at h
        cases h
    | some c0 =>
        rw [hl] at h
        replace h : (calculate_metrics c0).bind (fun mm => some (c0, mm)) = some (c, m) := h
        cases hm : calculate_metrics c0 with
        | none =>
            rw [hm] at h
            cases h
        | some m0 =>
            rw [hm] at h
            replace h : some (c0, m0) = some (c, m) := h
            simp only [Option.some.injEq, Prod.mk.injEq] at h
            obtain ⟨hc, -⟩ := h
            subst hc
            refine sjfLoop_ordered fuel 0 [] jobs (by intro k hk; cases hk) ?_ c0 hl
            intro k hk
            obtain ⟨-, hk2, hk3⟩ := (hfresh k hk :
              k.start_time = -1 ∧ 1 ≤ k.remaining_time ∧ k.remaining_time = k.burst_time)
            omega
  · intro fuel jobs c m hfresh h
    unfold stcfSchedule at h
    cases hl : stcfLoop fuel 0 [] jobs with
    | none =>
        rw [hl] at h
        cases h
    | some c0 =>
        rw [hl] at h
        replace h : (calculate_metrics c0).bind (fun mm => some (c0, mm)) = some (c, m) := h
        cases hm : calculate_metrics c0 with
        | none =>
            rw [hm] at h
            cases h
        | some m0 =>
            rw [hm] at h
            replace h : some (c0, m0) = some (c, m) := h
            simp only [Option.some.injEq, Prod.mk.injEq] at h
            obtain ⟨hc, -⟩ := h
            subst hc
            refine stcfLoop_ok fuel 0 [] jobs (by intro k hk; cases hk) ?_ c0 hl
            intro k hk
            obtain ⟨hk1, -, -⟩ := (hfresh k hk :
              k.start_time = -1 ∧ 1 ≤ k.remaining_time ∧ k.remaining_time = k.burst_time)
            exact Or.inl hk1
  · intro q fuel jobs c d m hq hfresh h
    unfold rrSchedule at h
    dsimp only at h
    cases hl : rrLoop q fuel 0 (pySorted (fun j => j.arrival_time) jobs) [] [] [] with
    | none =>
        rw [hl] at h
        cases h
    | some x =>
        obtain ⟨c0, d0⟩ := x
        rw [hl] at h
        replace h : (calculate_metrics c0).bind (fun mm => some (c0, d0, mm))
            = some (c, d, m) := h
        cases hm : calculate_metrics c0 with
        | none =>
            rw [hm] at h
            cases h
        | some m0 =>
            rw [hm] at h
            replace h : some (c0, d0, m0) = some (c, d, m) := h
            simp only [Option.some.injEq, Prod.mk.injEq] at h
            obtain ⟨hc, -⟩ := h
            subst hc
            refine rrLoop_ok q hq fuel 0 _ [] [] [] ?_
              (by intro k hk; cases hk) (by intro k hk; cases hk) (c0, d0) hl
            intro k hk
            obtain ⟨hk1, hk2, -⟩ := (hfresh k ((mem_pySorted _ jobs k).mp hk) :
              k.start_time = -1 ∧ 1 ≤ k.remaining_time ∧ k.remaining_time = k.burst_time)
            exact ⟨hk1, hk2⟩
  · intro fuel jobs c tr m hfresh h
    unfold cfsSchedule at h
    dsimp only at h
    cases hl : cfsLoop fuel 0 (pySorted (fun j => j.arrival_time) jobs) [] [] [] [] with
    | none =>
        rw [hl] at h
        cases h
    | some x =>
        obtain ⟨c0, tr0⟩ := x
        rw [hl] at h
        replace h : (calculate_metrics c0).bind (fun mm => some (c0, tr0, mm))
            = some (c, tr, m) := h
        cases hm : calculate_metrics c0 with
        | none =>
            rw [hm] at h
            cases h
        | some m0 =>
            rw [hm] at h
            replace h : some (c0, tr0, m0) = some (c, tr, m) := h
            simp only [Option.some.injEq, Prod.mk.injEq] at h
            obtain ⟨hc, -⟩ := h
            subst hc
            refine cfsLoop_ok fuel 0 _ [] [] [] [] ?_
              (by intro k hk; cases hk) (by intro k hk; cases hk) (c0, tr0) hl
            intro k hk
            obtain ⟨hk1, hk2, -⟩ := (hfresh k ((mem_pySorted _ jobs k).mp hk) :
              k.start_time = -1 ∧ 1 ≤ k.remaining_time ∧ k.remaining_time = k.burst_time)
            exact ⟨hk1, hk2⟩
  · intro cfg p fuel jobs out hfresh hp h
    unfold mlfqSchedule at h
    cases hl : mlfqLoop cfg fuel
        { waiting := pySorted (fun j => j.arrival_time) jobs
          queues := p.queues, io_jobs := [], current := none
          quantum_remaining := 0, cpu_time_used := 0, completed := []
          current_time := 0, time_since_boost := p.time_since_boost } with
    | none =>
        rw [hl] at h
        cases h
    | some x =>
        rw [hl] at h
        dsimp only at h
        cases hm : calculate_metrics x.1 with
        | none =>
            rw [hm] at h
            cases h
        | some m0 =>
            rw [hm] at h
            simp only [Option.some.injEq] at h
            subst h
            intro j hj
            refine mlfqLoop_ok cfg fuel _ ?_ x hl j hj
            unfold mlfqInv
            refine ⟨?_, ?_, ?_, ?_, ?_⟩ <;> dsimp only
            · intro k hk
              obtain ⟨hk1, hk2, -⟩ := (hfresh k ((mem_pySorted _ jobs k).mp hk) :
                k.start_time = -1 ∧ 1 ≤ k.remaining_time ∧ k.remaining_time = k.burst_time)
              exact ⟨hk1, hk2⟩
            · intro q hq k hk
              rw [hp q hq] at hk
              cases hk
            · intro k hk
              cases hk
            · intro k hk
              cases hk
            · intro k hk
              cases hk

/-- C1 counterexample: FIFO (like SJF) never decrements `remaining_time`,
so its completed job keeps `remaining_time = burst_time = 5 ≠ 0` — the
claim's universal `remaining_time = 0` fails for FIFO. -/
theorem C1_counterexample :
    (fifoSchedule [mkJobD 1 0 5 5]).map
        (fun x => x.1.map (fun j => (j.remaining_time, j.completion_time)))
      = some [(5, 5)] ∧ (5 : Int) ≠ 0 :=
  ⟨by decide, by decide⟩

/-- C1 witness: each engine conjunct applied at a concrete one-job run. -/
theorem C1_completed_bounds_witness :
    jobOrdered ⟨1, 0, 5, 5, 0, 0, 0, 5, false, -1, 5, []⟩ ∧
    jobOrdered ⟨2, 0, 3, 3, 0, 0, 0, 3, false, -1, 5, []⟩ ∧
    completedOk ⟨3, 0, 2, 0, 0, 0, 0, 2, false, -1, 5, []⟩ ∧
    completedOk ⟨4, 0, 2, 0, 0, 0, 0, 2, false, -1, 5, []⟩ ∧
    completedOk ⟨5, 0, 2, 0, 0, 0, 0, 2, false, -1, 5, []⟩ ∧
    completedOk ⟨6, 0, 2, 0, 0, 2, 0, 2, false, -1, 5, []⟩ := by
  have hmf : calculate_metrics [⟨1, 0, 5, 5, 0, 0, 0, 5, false, -1, 5, []⟩]
      = some ⟨5, 0, [5], [0]⟩ := by
    unfold calculate_metrics mean
    norm_num
  have hms : calculate_metrics [⟨2, 0, 3, 3, 0, 0, 0, 3, false, -1, 5, []⟩]
      = some ⟨3, 0, [3], [0]⟩ := by
    unfold calculate_metrics mean
    norm_num
  have hm3 : calculate_metrics [⟨3, 0, 2, 0, 0, 0, 0, 2, false, -1, 5, []⟩]
      = some ⟨2, 0, [2], [0]⟩ := by
    unfold calculate_metrics mean
    norm_num
  have hm4 : calculate_metrics [⟨4, 0, 2, 0, 0, 0, 0, 2, false, -1, 5, []⟩]
      = some ⟨2, 0, [2], [0]⟩ := by
    unfold calculate_metrics mean
    norm_num
  have hm5 : calculate_metrics [⟨5, 0, 2, 0, 0, 0, 0, 2, false, -1, 5, []⟩]
      = some ⟨2, 0, [2], [0]⟩ := by
    unfold calculate_metrics mean
    norm_num
  refine ⟨?_, ?_, ?_, ?_, ?_, ?_⟩
  · refine C1_completed_bounds.1 [mkJobD 1 0 5 5]
      [⟨1, 0, 5, 5, 0, 0, 0, 5, false, -1, 5, []⟩] ⟨5, 0, [5], [0]⟩
      (by decide) ?_ _ (by decide)
    unfold fifoSchedule
    dsimp only
    rw [show fifoGo 0 [] (pySorted (fun j => j.arrival_time) [mkJobD 1 0 5 5])
        = [⟨1, 0, 5, 5, 0, 0, 0, 5, false, -1, 5, []⟩] from by decide, hmf]
    rfl
  · refine C1_completed_bounds.2.1 2 [mkJobD 2 0 3 3]
      [⟨2, 0, 3, 3, 0, 0, 0, 3, false, -1, 5, []⟩] ⟨3, 0, [3], [0]⟩
      (by decide) ?_ _ (by decide)
    unfold sjfSchedule
    rw [show sjfLoop 2 0 [] [mkJobD 2 0 3 3]
        = some [⟨2, 0, 3, 3, 0, 0, 0, 3, false, -1, 5, []⟩] from by decide]
    show (calculate_metrics [(⟨2, 0, 3, 3, 0, 0, 0, 3, false, -1, 5, []⟩ : Job)]).bind
        (fun mm => some ([(⟨2, 0, 3, 3, 0, 0, 0, 3, false, -1, 5, []⟩ : Job)], mm))
      = some ([(⟨2, 0, 3, 3, 0, 0, 0, 3, false, -1, 5, []⟩ : Job)],
              (⟨3, 0, [3], [0]⟩ : Metrics))
    rw [hms]
    rfl
  · refine C1_completed_bounds.2.2.1 3 [mkJobD 3 0 2 2]
      [⟨3, 0, 2, 0, 0, 0, 0, 2, false, -1, 5, []⟩] ⟨2, 0, [2], [0]⟩
      (by decide) ?_ _ (by decide)
    unfold stcfSchedule
    rw [show stcfLoop 3 0 [] [mkJobD 3 0 2 2]
        = some [⟨3, 0, 2, 0, 0, 0, 0, 2, false, -1, 5, []⟩] from by decide]
    show (calculate_metrics [(⟨3, 0, 2, 0, 0, 0, 0, 2, false, -1, 5, []⟩ : Job)]).bind
        (fun mm => some ([(⟨3, 0, 2, 0, 0, 0, 0, 2, false, -1, 5, []⟩ : Job)], mm))
      = some ([(⟨3, 0, 2, 0, 0, 0, 0, 2, false, -1, 5, []⟩ : Job)],
              (⟨2, 0, [2], [0]⟩ : Metrics))
    rw [hm3]
    rfl
  · refine C1_completed_bounds.2.2.2.1 2 3 [mkJobD 4 0 2 2]
      [⟨4, 0, 2, 0, 0, 0, 0, 2, false, -1, 5, []⟩] [(0, 4)] ⟨2, 0, [2], [0]⟩
      (by decide) (by decide) ?_ _ (by decide)
    unfold rrSchedule
    dsimp only
    rw [show rrLoop 2 3 0 (pySorted (fun j => j.arrival_time) [mkJobD 4 0 2 2]) [] [] []
        = some ([⟨4, 0, 2, 0, 0, 0, 0, 2, false, -1, 5, []⟩], [(0, 4)]) from by decide]
    show (calculate_metrics [(⟨4, 0, 2, 0, 0, 0, 0, 2, false, -1, 5, []⟩ : Job)]).bind
        (fun mm => some ([(⟨4, 0, 2, 0, 0, 0, 0, 2, false, -1, 5, []⟩ : Job)],
          [((0 : Int), (4 : Int))], mm))
      = some ([(⟨4, 0, 2, 0, 0, 0, 0, 2, false, -1, 5, []⟩ : Job)],
              [((0 : Int), (4 : Int))], (⟨2, 0, [2], [0]⟩ : Metrics))
    rw [hm4]
    rfl
  · refine C1_completed_bounds.2.2.2.2.1 4 [mkJobD 5 0 2 2]
      [⟨5, 0, 2, 0, 0, 0, 0, 2, false, -1, 5, []⟩] [(0, 5), (1, 5)] ⟨2, 0, [2], [0]⟩
      (by decide) ?_ _ (by decide)
    unfold cfsSchedule
    dsimp only
    rw [show cfsLoop 4 0 (pySorted (fun j => j.arrival_time) [mkJobD 5 0 2 2]) [] [] [] []
        = some ([⟨5, 0, 2, 0, 0, 0, 0, 2, false, -1, 5, []⟩], [(0, 5), (1, 5)]) from by decide]
    show (calculate_metrics [(⟨5, 0, 2, 0, 0, 0, 0, 2, false, -1, 5, []⟩ : Job)]).bind
        (fun mm => some ([(⟨5, 0, 2, 0, 0, 0, 0, 2, false, -1, 5, []⟩ : Job)],
          [((0 : Int), (5 : Int)), ((1 : Int), (5 : Int))], mm))
      = some ([(⟨5, 0, 2, 0, 0, 0, 0, 2, false, -1, 5, []⟩ : Job)],
              [((0 : Int), (5 : Int)), ((1 : Int), (5 : Int))], (⟨2, 0, [2], [0]⟩ : Metrics))
    rw [hm5]
    rfl
  · refine C1_completed_bounds.2.2.2.2.2 (mkMLFQScheduler 3 none none none).1
      ⟨[[], [], []], 0⟩ 4 [mkJobD 6 0 2 2]
      (([⟨6, 0, 2, 0, 0, 2, 0, 2, false, -1, 5, []⟩],
        ⟨2, 0, [2], [0]⟩,
        [⟨0, 6, 0, TLStatus.running⟩, ⟨1, 6, 0, TLStatus.running⟩,
         ⟨2, -1, -1, TLStatus.idle⟩]),
       ⟨[[], [], []], 3⟩)
      (by decide) (by decide) ?_ _ (by decide)
    unfold mlfqSchedule
    rw [show mlfqLoop (mkMLFQScheduler 3 none none none).1 4
        { waiting := pySorted (fun j => j.arrival_time) [mkJobD 6 0 2 2]
          queues := (⟨[[], [], []], 0⟩ : MLFQPersist).queues, io_jobs := []
          current := none, quantum_remaining := 0, cpu_time_used := 0
          completed := [], current_time := 0
          time_since_boost := (⟨[[], [], []], 0⟩ : MLFQPersist).time_since_boost }
        = some ([⟨6, 0, 2, 0, 0, 2, 0, 2, false, -1, 5, []⟩],
                [⟨0, 6, 0, TLStatus.running⟩, ⟨1, 6, 0, TLStatus.running⟩,
                 ⟨2, -1, -1, TLStatus.idle⟩], [[], [], []], 3) from by decide]
    dsimp only
    unfold calculate_metrics mean
    norm_num

end Sched
